import Mathlib

/-!
Verification development for the iqueue library (iqueue.c / iqueue.h).

The C code is shallowly embedded: every operation is a pure Lean function on
an explicit state record.  Machine integers (`uint32_t` counters, positions)
are modelled as `Nat` with explicit reduction modulo `2^32` at each point the
C code can wrap.  A cell of the ring holds a `Nat`; the value `0` models the
NULL pointer, i.e. the empty-cell sentinel.  The embedding is sequential:
each atomic read-modify-write of the source is one state transformation, and
a compare-and-swap always observes the value the same thread just read.
A spin loop that cannot make progress in a sequential execution is modelled
by an explicit `spin` outcome instead of divergence.
-/

set_option maxRecDepth 8192

namespace Iqueue

/-- Number of values of a uint32_t, used to reduce 32-bit arithmetic. -/
def U32 : Nat := 4294967296

/-- NROFSIZE, the number of shards of the sizeused/sizefree counters
(iqueue.c line 125); it equals 256. -/
def NROFSIZE : Nat := 256

/-- Pointwise update of an array modelled as a function: `upd f i v` is the
array `f` with slot `i` set to `v`. -/
def upd (f : Nat → Nat) (i v : Nat) : Nat → Nat :=
  fun j => if j = i then v else f j

/-- Return codes of the C API: 0, EINVAL, EPIPE, EAGAIN. -/
inductive RC where
  | ok
  | einval
  | epipe
  | eagain
deriving DecidableEq, Repr

/-- State of an iqsignal_t: the mutex and condition variable are not part of
the sequential state; waitcount and signalcount are (iqueue.c lines 47-120).
signalcount is a size_t but all modelled transitions keep it far from wrap. -/
structure IQSignal where
  waitcount : Nat
  signalcount : Nat
deriving DecidableEq, Repr

/-- State of an iqueue_t (MPMC queue).  `msg` is the cell array: `msg p = 0`
means cell `p` is empty, otherwise it holds the handle `msg p`.  `sizefree`
and `sizeused` are the NROFSIZE sharded uint32 counters; `writepos` and
`readpos` are uint32 values. -/
structure IQueue where
  capacity : Nat
  closed : Bool
  ifree : Nat
  iused : Nat
  sizefree : Nat → Nat
  sizeused : Nat → Nat
  writepos : Nat
  readpos : Nat
  msg : Nat → Nat
  reader : IQSignal
  writer : IQSignal

/-- Outcome of the shard-reservation for-loop shared by trysend_iqueue
(fields sizefree/ifree, iqueue.c lines 230-238) and tryrecv_iqueue (fields
sizeused/iused, lines 254-262): either a shard was reserved (the counter
array after the successful decrement, the rotation index, and the reserved
shard), or the loop returned EPIPE/EAGAIN (with the counter array and index
at that moment). -/
inductive RRes where
  | reserved (c : Nat → Nat) (idx : Nat) (shard : Nat)
  | fail (rc : RC) (c : Nat → Nat) (idx : Nat)

/-- The reservation loop, parameterised by the closed flag and capacity and
acting on (counter array, rotation index).  The fuel is the number of
remaining attempts; the C loop returns EAGAIN after NROFSIZE failed attempts
(`if (i == NROFSIZE-1) return EAGAIN`), which is the fuel-0 base case when
the loop is entered with fuel NROFSIZE.  One attempt, following the C code:
read the rotation index; if closed return EPIPE; fetch-add (uint32_t)-1 to
the counter of that shard (the local variable holds the decremented value);
if the new value is < capacity the shard is reserved; otherwise add 1 back,
compare-and-swap the rotation index one step further (in this sequential
embedding the CAS always observes the value just read; the source's
(ifree+1) & (NROFSIZE-1) equals (ifree+1) mod NROFSIZE since NROFSIZE is
2^8) and retry. -/
def reserveLoop (closed : Bool) (cap : Nat) : Nat → (Nat → Nat) → Nat → RRes
  | 0, c, idx => .fail .eagain c idx
  | n+1, c, idx =>
    let i := idx
    if closed then .fail .epipe c idx
    else
      let v := (c i + (U32 - 1)) % U32
      let c1 := upd c i v
      if v < cap then .reserved c1 idx i
      else
        let c2 := upd c1 i ((v + 1) % U32)
        let idx2 := if idx = i then (i + 1) % NROFSIZE else idx
        reserveLoop closed cap n c2 idx2

/-- Outcome of trysend_iqueue: success, an error code, or (only possible
outside the reachable states) a sequential execution stuck forever in the
publish CAS loop `while (0 != cmpxchg_atomicptr(&queue->msg[pos], 0, msg))`. -/
inductive SendRes where
  | ok (q : IQueue)
  | err (rc : RC) (q : IQueue)
  | spin (q : IQueue)

/-- Outcome of tryrecv_iqueue: success with the received handle, an error
code, or a sequential execution stuck forever in the claim CAS loop. -/
inductive RecvRes where
  | ok (m : Nat) (q : IQueue)
  | err (rc : RC) (q : IQueue)
  | spin (q : IQueue)

/-- trysend_iqueue (iqueue.c lines 222-248).  After a successful shard
reservation the code claims `pos = fetchadd(writepos,1) & (capacity-1)` and
spins on `cmpxchg(&msg[pos], 0, msg)`; sequentially that CAS either succeeds
at once (cell empty) or can never succeed, which is the `spin` outcome.
On success the used counter of the reserved shard is incremented. -/
def trysend (q : IQueue) (m : Nat) : SendRes :=
  if m = 0 then .err .einval q
  else
    match reserveLoop q.closed q.capacity NROFSIZE q.sizefree q.ifree with
    | .fail rc c idx => .err rc { q with sizefree := c, ifree := idx }
    | .reserved c idx ifree =>
      let q1 : IQueue := { q with sizefree := c, ifree := idx }
      let pos0 := q1.writepos
      let q2 : IQueue := { q1 with writepos := (q1.writepos + 1) % U32 }
      let pos := pos0 &&& (q2.capacity - 1)
      if q2.msg pos = 0 then
        let q3 : IQueue := { q2 with msg := upd q2.msg pos m }
        .ok { q3 with
              sizeused := upd q3.sizeused ifree ((q3.sizeused ifree + 1) % U32) }
      else .spin q2

/-- tryrecv_iqueue (iqueue.c lines 250-277).  After a successful shard
reservation the code claims `pos = fetchadd(readpos,1) & (capacity-1)` and
runs `do { fetched = msg[pos] } while (fetched != cmpxchg(&msg[pos],
fetched, 0) || 0 == fetched)`; sequentially the CAS always returns the value
just read, so the loop exits iff the cell is non-empty (otherwise `spin`).
On success the free counter of the reserved shard is incremented. -/
def tryrecv (q : IQueue) : RecvRes :=
  match reserveLoop q.closed q.capacity NROFSIZE q.sizeused q.iused with
  | .fail rc c idx => .err rc { q with sizeused := c, iused := idx }
  | .reserved c idx iused =>
    let q1 : IQueue := { q with sizeused := c, iused := idx }
    let pos0 := q1.readpos
    let q2 : IQueue := { q1 with readpos := (q1.readpos + 1) % U32 }
    let pos := pos0 &&& (q2.capacity - 1)
    let fetchedmsg := q2.msg pos
    if fetchedmsg = 0 then .spin q2
    else
      let q3 : IQueue := { q2 with msg := upd q2.msg pos 0 }
      .ok fetchedmsg
        { q3 with
          sizefree := upd q3.sizefree iused ((q3.sizefree iused + 1) % U32) }

/-- close_iqueue (iqueue.c lines 196-220): sets the closed flag under both
gate locks.  The subsequent broadcast/drain loop only wakes waiters and
polls their waitcount; it modifies no queue field and, with no parked
threads in a sequential execution, exits at once. -/
def close (q : IQueue) : IQueue :=
  { q with closed := true }

/-- The WAKEUP_READER macro (iqueue.c lines 279-287): if the preceding try
operation succeeded (err == 0) and reader.signalcount is non-zero, then --
re-checking signalcount under the gate lock, which in this sequential
embedding reads the same value -- decrement reader.signalcount and call
pthread_cond_signal once on the reader gate.  The second component of the
result counts the cond_signal calls performed. -/
def wakeupReader (err : RC) (q : IQueue) : IQueue × Nat :=
  if err = .ok ∧ q.reader.signalcount ≠ 0 then
    if q.reader.signalcount ≠ 0 then
      ({ q with reader := { q.reader with
           signalcount := q.reader.signalcount - 1 } }, 1)
    else (q, 0)
  else (q, 0)

/-- The WAKEUP_WRITER macro (iqueue.c lines 289-297), mirror image of
WAKEUP_READER on the writer gate. -/
def wakeupWriter (err : RC) (q : IQueue) : IQueue × Nat :=
  if err = .ok ∧ q.writer.signalcount ≠ 0 then
    if q.writer.signalcount ≠ 0 then
      ({ q with writer := { q.writer with
           signalcount := q.writer.signalcount - 1 } }, 1)
    else (q, 0)
  else (q, 0)

/-- Outcome of the blocking send_iqueue: a definitive return, or the call
parked on the writer gate (its first cond_wait), which in a sequential
execution never returns because no other thread can drain the queue. -/
inductive BSendRes where
  | done (rc : RC) (q : IQueue)
  | blocked (q : IQueue)
  | spin (q : IQueue)

/-- Outcome of the blocking recv_iqueue. -/
inductive BRecvRes where
  | done (rc : RC) (m : Nat) (q : IQueue)
  | blocked (q : IQueue)
  | spin (q : IQueue)

/-- send_iqueue (iqueue.c lines 299-321): one trysend_iqueue, then
WAKEUP_READER, then -- only if the try returned EAGAIN -- lock the writer
gate, increment writer.waitcount, and loop { trysend; if not EAGAIN break;
increment writer.signalcount; cond_wait }.  Sequentially a retry after
EAGAIN reproduces EAGAIN (trysend restored the state), so the call parks on
the first cond_wait: state recorded by `blocked`, with waitcount and
signalcount of the writer gate incremented once each.  Note the code wakes
no reader after the parked loop succeeds; the single WAKEUP_READER sits
before the loop.  The second component counts reader-gate cond_signal
calls. -/
def send (q : IQueue) (m : Nat) : BSendRes × Nat :=
  match trysend q m with
  | .ok q1 =>
    let w := wakeupReader .ok q1
    (.done .ok w.1, w.2)
  | .err rc q1 =>
    let w := wakeupReader rc q1
    if rc = .eagain then
      (.blocked { w.1 with writer := { waitcount := w.1.writer.waitcount + 1,
                                       signalcount := w.1.writer.signalcount + 1 } }, w.2)
    else (.done rc w.1, w.2)
  | .spin q1 => (.spin q1, 0)

/-- recv_iqueue (iqueue.c lines 323-345), mirror image of send_iqueue: one
tryrecv_iqueue, then WAKEUP_WRITER, then park on the reader gate if the try
returned EAGAIN.  The second component counts writer-gate cond_signal
calls. -/
def recv (q : IQueue) : BRecvRes × Nat :=
  match tryrecv q with
  | .ok m q1 =>
    let w := wakeupWriter .ok q1
    (.done .ok m w.1, w.2)
  | .err rc q1 =>
    let w := wakeupWriter rc q1
    if rc = .eagain then
      (.blocked { w.1 with reader := { waitcount := w.1.reader.waitcount + 1,
                                       signalcount := w.1.reader.signalcount + 1 } }, w.2)
    else (.done rc 0 w.1, w.2)
  | .spin q1 => (.spin q1, 0)

/-- The queue state constructed by new_iqueue (iqueue.c lines 139-163) for a
given aligned capacity: malloc'ed memory memset to zero (all cells empty,
all positions and flags zero, both gates zeroed by init_iqsignal), capacity
set, and every sizefree shard set to aligned_capacity / NROFSIZE. -/
def initQueue (aligned : Nat) : IQueue :=
  { capacity := aligned
    closed := false
    ifree := 0
    iused := 0
    sizefree := fun _ => aligned / NROFSIZE
    sizeused := fun _ => 0
    writepos := 0
    readpos := 0
    msg := fun _ => 0
    reader := { waitcount := 0, signalcount := 0 }
    writer := { waitcount := 0, signalcount := 0 } }

/-- Outcome of new_iqueue: EINVAL, a constructed queue, or divergence of the
capacity-rounding loop (which happens when aligned_capacity, a uint32_t,
wraps to 0 by doubling while remaining below the requested capacity).
ENOMEM and gate-initialisation failures are outside the model: allocation
is assumed to succeed. -/
inductive NewRes where
  | einval
  | ok (q : IQueue)
  | diverge

/-- The capacity-rounding loop of new_iqueue (iqueue.c lines 132-137):
`while (aligned < capacity) { aligned <<= 1; if (aligned >= ((size_t)-1 -
sizeof(iqueue_t)) / sizeof(void*)) return EINVAL; }`.  Parameters: szq
models sizeof(iqueue_t), szptr models sizeof(void*), stmax models
(size_t)-1; `aligned` is a uint32_t, so the shift is taken mod 2^32.
The result is none when the fuel runs out -- with fuel at least 34 that
happens exactly when the loop diverges, since aligned then reached 0 and
can never change again -- some none on EINVAL, and some (some a) when the
loop exits with aligned = a. -/
def alignLoop (szq szptr stmax capacity : Nat) : Nat → Nat → Option (Option Nat)
  | 0, _ => none
  | f+1, aligned =>
    if aligned < capacity then
      let aligned2 := (aligned * 2) % U32
      if aligned2 ≥ (stmax - szq) / szptr then some none
      else alignLoop szq szptr stmax capacity f aligned2
    else some (some aligned)

/-- new_iqueue (iqueue.c lines 127-173).  `capacity & (capacity-1)` is zero
iff capacity is zero or a power of two (for capacity = 0 the C operand
capacity-1 wraps to 2^32-1, but 0 & x = 0 either way, matching Nat
subtraction).  The starting value of aligned_capacity is NROFSIZE when the
request is below NROFSIZE or not a power of two, else capacity/2. -/
def new_iqueue (szq szptr stmax : Nat) (capacity : Nat) : NewRes :=
  let isNOTpowerof2 := capacity &&& (capacity - 1)
  let aligned := if capacity < NROFSIZE ∨ isNOTpowerof2 ≠ 0 then NROFSIZE
                 else capacity / 2
  match alignLoop szq szptr stmax capacity 40 aligned with
  | none => .diverge
  | some none => .einval
  | some (some a) => .ok (initQueue a)

/-- State of an iqueue1_t (SPSC queue): readpos and writepos are uint32
positions below capacity in all reachable states; msg is the cell array
with 0 the empty sentinel. -/
structure IQueue1 where
  capacity : Nat
  closed : Bool
  readpos : Nat
  writepos : Nat
  msg : Nat → Nat

/-- trysend_iqueue1 (iqueue.c lines 445-469): EINVAL on the null handle,
EPIPE when closed; otherwise speculatively advance writepos (increment,
wrapping to 0 at capacity), then CAS the old cell from empty to msg; on CAS
failure restore writepos and return EAGAIN. -/
def trysend1 (q : IQueue1) (m : Nat) : RC × IQueue1 :=
  if m = 0 then (.einval, q)
  else if q.closed then (.epipe, q)
  else
    let oldpos := q.writepos
    let pos := (oldpos + 1) % U32
    let pos := if pos ≥ q.capacity then 0 else pos
    let q1 : IQueue1 := { q with writepos := pos }
    if q1.msg oldpos = 0 then (.ok, { q1 with msg := upd q1.msg oldpos m })
    else (.eagain, { q1 with writepos := oldpos })

/-- tryrecv_iqueue1 (iqueue.c lines 471-495): EPIPE when closed; otherwise
speculatively advance readpos, read the old cell and CAS it from that value
to empty.  Sequentially the CAS always observes the value just read, so the
guard `fetched != cmpxchg(...) || 0 == fetched` reduces to the cell having
been empty; in that case readpos is restored and EAGAIN returned, else the
fetched handle is delivered.  The middle component is the out-parameter
*msg, written only on success. -/
def tryrecv1 (q : IQueue1) : RC × Nat × IQueue1 :=
  if q.closed then (.epipe, 0, q)
  else
    let oldpos := q.readpos
    let pos := (oldpos + 1) % U32
    let pos := if pos ≥ q.capacity then 0 else pos
    let q1 : IQueue1 := { q with readpos := pos }
    let fetchedmsg := q1.msg oldpos
    if fetchedmsg = 0 then (.eagain, 0, { q1 with readpos := oldpos })
    else (.ok, fetchedmsg, { q1 with msg := upd q1.msg oldpos 0 })

/-- size_iqueue1 (iqueue.c lines 545-559).  readpos and writepos are read
atomically (plain reads in this sequential embedding).  The subtraction
`capacity - free` is uint32 arithmetic, modelled exactly as
(capacity + 2^32 - free) % 2^32; `free = rpos - wpos` cannot wrap because
the branch guarantees rpos >= wpos. -/
def size1 (q : IQueue1) : Nat :=
  let rpos := q.readpos
  let wpos := q.writepos
  if rpos < wpos then wpos - rpos
  else
    let free := rpos - wpos
    if free = 0 ∧ q.msg (if wpos = 0 then q.capacity - 1 else wpos - 1) = 0
    then 0
    else (q.capacity + U32 - free) % U32

/-- wait_iqsignal (iqueue.c lines 76-87): under the lock, if signalcount is
zero, increment waitcount, wait once on the condition variable, decrement
waitcount.  The blocking path is embedded with an oracle argument `wake`:
the signal state at the moment pthread_cond_wait returns (its waitcount
still counting this thread).  The non-blocking path returns the entry state
unchanged. -/
def wait_iqsignal (s : IQSignal) (wake : IQSignal) : IQSignal :=
  if s.signalcount ≠ 0 then s
  else { wake with waitcount := wake.waitcount - 1 }

/-- signal_iqsignal (iqueue.c lines 89-97): under the lock, increment
signalcount (a size_t; reduction mod 2^64 is immaterial for the claims and
omitted together with the broadcast, which changes no state field). -/
def signal_iqsignal (s : IQSignal) : IQSignal :=
  { s with signalcount := s.signalcount + 1 }

/-- clearsignal_iqsignal (iqueue.c lines 99-109): under the lock, read
signalcount, set it to zero, and return the prior value. -/
def clearsignal_iqsignal (s : IQSignal) : Nat × IQSignal :=
  (s.signalcount, { s with signalcount := 0 })

/-- Sum of a sharded counter array over its NROFSIZE shards. -/
def shardSum (f : Nat → Nat) : Nat :=
  ∑ i ∈ Finset.range NROFSIZE, f i

/-- Sequential state invariant of the MPMC queue.  It holds for the state
built by new_iqueue and is preserved by trysend_iqueue and tryrecv_iqueue;
`shardSum q.sizeused` is the number of stored messages, the full cells are
exactly the window of that length starting at readpos (mod capacity), and
every shard satisfies the conservation law sizefree + sizeused =
capacity / NROFSIZE. -/
structure Inv (q : IQueue) : Prop where
  cap_pow : ∃ k, 8 ≤ k ∧ k < 32 ∧ q.capacity = 2 ^ k
  ifree_lt : q.ifree < NROFSIZE
  iused_lt : q.iused < NROFSIZE
  quota : ∀ i < NROFSIZE, q.sizefree i + q.sizeused i = q.capacity / NROFSIZE
  wpos_eq : q.writepos = (q.readpos + shardSum q.sizeused) % U32
  rpos_lt : q.readpos < U32
  cells_in : ∀ j < shardSum q.sizeused,
    q.msg ((q.readpos + j) % q.capacity) ≠ 0
  cells_out : ∀ p < q.capacity,
    (∀ j < shardSum q.sizeused, p ≠ (q.readpos + j) % q.capacity) →
    q.msg p = 0

/-- Refinement relation for the SPSC queue: state `q` represents the FIFO
list `l` (front at the head).  The stored handles occupy exactly the window
of length `l.length` starting at readpos (mod capacity), in list order, and
writepos is readpos advanced by the length (mod capacity). -/
structure AbsR (q : IQueue1) (l : List Nat) : Prop where
  cap_pos : 0 < q.capacity
  cap_lt : q.capacity < U32
  rpos_lt : q.readpos < q.capacity
  wpos_eq : q.writepos = (q.readpos + l.length) % q.capacity
  len_le : l.length ≤ q.capacity
  cells : ∀ j (hj : j < l.length),
    q.msg ((q.readpos + j) % q.capacity) = l.get ⟨j, hj⟩
  nonzero : ∀ h ∈ l, h ≠ 0
  empty : ∀ p < q.capacity,
    (∀ j < l.length, p ≠ (q.readpos + j) % q.capacity) → q.msg p = 0

section UpdLemmas

theorem upd_same (f : Nat → Nat) (i v : Nat) : upd f i v i = v := by
  simp [upd]

theorem upd_other (f : Nat → Nat) {i j : Nat} (v : Nat) (h : j ≠ i) :
    upd f i v j = f j := by
  simp [upd, h]

theorem upd_self (f : Nat → Nat) (i : Nat) {v : Nat} (h : f i = v) :
    upd f i v = f := by
  funext j
  by_cases hj : j = i
  · subst hj; simp [upd, h]
  · simp [upd, hj]

theorem upd_upd (f : Nat → Nat) (i v w : Nat) :
    upd (upd f i v) i w = upd f i w := by
  funext j
  by_cases hj : j = i <;> simp [upd, hj]

end UpdLemmas

section WindowLemmas

/-- Two in-range offsets from the same base are congruent mod capacity only
if equal. -/
theorem window_inj {cap r j j' : Nat} (hj : j < cap) (hj' : j' < cap)
    (h : (r + j) % cap = (r + j') % cap) : j = j' := by
  have hmod : j % cap = j' % cap := by
    have h1 : (r + j) % cap = (r % cap + j % cap) % cap := by
      rw [Nat.add_mod]
    have h2 : (r + j') % cap = (r % cap + j' % cap) % cap := by
      rw [Nat.add_mod]
    have := Nat.ModEq.add_left_cancel' r (by
      show (r + j) % cap = (r + j') % cap
      exact h)
    exact this
  rw [Nat.mod_eq_of_lt hj, Nat.mod_eq_of_lt hj'] at hmod
  exact hmod

/-- Adding a multiple of U32 does not change residues modulo a divisor of
U32; specialised form used to push a uint32 wrap through a mod-capacity. -/
theorem mod_u32_mod {cap x : Nat} (hdvd : cap ∣ U32) :
    x % U32 % cap = x % cap :=
  Nat.mod_mod_of_dvd x hdvd

theorem pow2_dvd_u32 {k : Nat} (hk : k < 32) : (2 : Nat) ^ k ∣ U32 := by
  have : U32 = 2 ^ 32 := by decide
  rw [this]
  exact pow_dvd_pow 2 (Nat.le_of_lt hk)

end WindowLemmas

/-- C9: wait_iqsignal never modifies signalcount: on the immediate path the
returned signalcount is the entry value, on the blocking path it is the
value at the moment the wait ended; clearing to zero is done only by
clearsignal_iqsignal, which returns the prior value. -/
theorem C9_wait_iqsignal_preserves_signalcount (s wake : IQSignal) :
    (wait_iqsignal s wake).signalcount =
      (if s.signalcount ≠ 0 then s.signalcount else wake.signalcount) ∧
    (clearsignal_iqsignal s).2.signalcount = 0 ∧
    (clearsignal_iqsignal s).1 = s.signalcount := by
  refine ⟨?_, rfl, rfl⟩
  unfold wait_iqsignal
  by_cases h : s.signalcount ≠ 0 <;> simp [h]

/-- C6: the SPSC try operations are atomic on failure: whenever
trysend_iqueue1 or tryrecv_iqueue1 returns EAGAIN, the queue state (in
particular the speculatively advanced writepos resp. readpos) is exactly
the state before the call. -/
theorem C6_spsc_eagain_rollback (q : IQueue1) (m : Nat) :
    ((trysend1 q m).1 = RC.eagain → (trysend1 q m).2 = q) ∧
    ((tryrecv1 q).1 = RC.eagain → (tryrecv1 q).2.2 = q) := by
  rcases q with ⟨cap, cl, rp, wp, ms⟩
  constructor
  · intro h
    by_cases hm : m = 0
    · simp [trysend1, hm] at h
    · by_cases hc : cl
      · simp [trysend1, hm, hc] at h
      · by_cases hcell : ms wp = 0
        · simp [trysend1, hm, hc, hcell] at h
        · simp [trysend1, hm, hc, hcell]
  · intro h
    by_cases hc : cl
    · simp [tryrecv1, hc] at h
    · by_cases hcell : ms rp = 0
      · simp [tryrecv1, hc, hcell]
      · simp [tryrecv1, hc, hcell] at h

/-- Witness for C6 at concrete inputs: a full one-cell queue rejects a send
and a distinct empty one-cell queue rejects a receive, both leaving the
state untouched. -/
theorem C6_spsc_eagain_rollback_witness :
    (trysend1 ⟨1, false, 0, 0, fun _ => 5⟩ 7).2 = ⟨1, false, 0, 0, fun _ => 5⟩ ∧
    (tryrecv1 ⟨1, false, 0, 0, fun _ => 0⟩).2.2 = ⟨1, false, 0, 0, fun _ => 0⟩ :=
  ⟨(C6_spsc_eagain_rollback ⟨1, false, 0, 0, fun _ => 5⟩ 7).1 rfl,
   (C6_spsc_eagain_rollback ⟨1, false, 0, 0, fun _ => 0⟩ 0).2 rfl⟩

/-- Unfolding equation for size_iqueue1 with the local bindings inlined. -/
theorem size1_eq (q : IQueue1) : size1 q =
    if q.readpos < q.writepos then q.writepos - q.readpos
    else if q.readpos - q.writepos = 0 ∧
        q.msg (if q.writepos = 0 then q.capacity - 1 else q.writepos - 1) = 0
      then 0
      else (q.capacity + U32 - (q.readpos - q.writepos)) % U32 := rfl

/-- C7: size_iqueue1 returns writepos - readpos when writepos > readpos;
when the positions are equal it returns 0 if the cell just before writepos
(mod capacity) is empty and capacity otherwise; and it returns
capacity - (readpos - writepos) when writepos < readpos.  The position
bounds hold in every reachable state. -/
theorem C7_size1_spec (q : IQueue1) (hw : q.writepos < q.capacity)
    (hr : q.readpos < q.capacity) (hcap : q.capacity < U32) :
    (q.readpos < q.writepos → size1 q = q.writepos - q.readpos) ∧
    (q.writepos = q.readpos →
      size1 q = if q.msg ((q.writepos + q.capacity - 1) % q.capacity) = 0
                then 0 else q.capacity) ∧
    (q.writepos < q.readpos →
      size1 q = q.capacity - (q.readpos - q.writepos)) := by
  have hcappos : 0 < q.capacity := Nat.zero_lt_of_lt hw
  refine ⟨?_, ?_, ?_⟩
  · intro hlt
    rw [size1_eq, if_pos hlt]
  · intro heq
    have hprev : (if q.writepos = 0 then q.capacity - 1 else q.writepos - 1)
        = (q.writepos + q.capacity - 1) % q.capacity := by
      by_cases h0 : q.writepos = 0
      · simp only [h0, if_pos rfl, Nat.zero_add]
        exact (Nat.mod_eq_of_lt (Nat.sub_lt hcappos Nat.one_pos)).symm
      · rw [if_neg h0]
        obtain ⟨w, hww⟩ := Nat.exists_eq_succ_of_ne_zero h0
        rw [hww, Nat.succ_sub_one, Nat.succ_add, Nat.succ_sub_one,
          Nat.add_mod_right]
        exact (Nat.mod_eq_of_lt (Nat.lt_of_succ_lt (hww ▸ hw))).symm
    have hnlt : ¬ q.readpos < q.writepos := by
      rw [heq]
      exact Nat.lt_irrefl _
    have hfree : q.readpos - q.writepos = 0 := by
      rw [heq]
      exact Nat.sub_self _
    have hcapmod : (q.capacity + U32) % U32 = q.capacity := by
      rw [Nat.add_mod_right]
      exact Nat.mod_eq_of_lt hcap
    by_cases hcell :
        q.msg ((q.writepos + q.capacity - 1) % q.capacity) = 0
    · rw [size1_eq, if_neg hnlt, hfree, hprev, if_pos ⟨rfl, hcell⟩,
        if_pos hcell]
    · rw [size1_eq, if_neg hnlt, hfree, hprev,
        if_neg (fun hh => hcell hh.2), if_neg hcell, Nat.sub_zero, hcapmod]
  · intro hlt
    have hnlt : ¬ q.readpos < q.writepos := Nat.lt_asymm hlt
    have hfree : q.readpos - q.writepos ≠ 0 := Nat.sub_ne_zero_of_lt hlt
    have hval : (q.capacity + U32 - (q.readpos - q.writepos)) % U32
        = q.capacity - (q.readpos - q.writepos) := by
      rw [Nat.sub_add_comm
        (Nat.le_trans (Nat.sub_le _ _) (Nat.le_of_lt hr)),
        Nat.add_mod_right]
      exact Nat.mod_eq_of_lt
        (Nat.lt_of_le_of_lt (Nat.sub_le _ _) hcap)
    rw [size1_eq, if_neg hnlt, if_neg (fun hh => hfree hh.1), hval]

/-- Witness for C7 at a concrete state: capacity 4, readpos 1, writepos 3,
all cells empty, giving size 2. -/
theorem C7_size1_spec_witness :
    size1 ⟨4, false, 1, 3, fun _ => 0⟩ = 3 - 1 :=
  (C7_size1_spec ⟨4, false, 1, 3, fun _ => 0⟩ (by decide) (by decide)
    (by decide)).1 (by decide)

/-- The wrap-to-zero advance of a position in the SPSC operations equals the
increment mod capacity, for in-range positions. -/
theorem spsc_advance {cap x : Nat} (hx : x < cap) (hcap : cap < U32) :
    (if (x + 1) % U32 ≥ cap then 0 else (x + 1) % U32) = (x + 1) % cap := by
  have h1 : (x + 1) % U32 = x + 1 :=
    Nat.mod_eq_of_lt (Nat.lt_of_le_of_lt (Nat.succ_le_of_lt hx) hcap)
  rw [h1]
  by_cases h2 : x + 1 ≥ cap
  · have h3 : x + 1 = cap := Nat.le_antisymm (Nat.succ_le_of_lt hx) h2
    rw [if_pos h2, h3, Nat.mod_self]
  · rw [if_neg h2]
    exact (Nat.mod_eq_of_lt (Nat.lt_of_not_ge h2)).symm

theorem U32_eq : U32 = 4294967296 := rfl

theorem NROFSIZE_eq : NROFSIZE = 256 := rfl

theorem NROFSIZE_pos : 0 < NROFSIZE := by decide

/-- Rotating the shard index one step and then advancing e more steps is
advancing e+1 steps. -/
theorem shard_rot (idx e : Nat) :
    ((idx + 1) % NROFSIZE + e) % NROFSIZE = (idx + (e + 1)) % NROFSIZE := by
  rw [Nat.mod_add_mod, Nat.add_assoc, Nat.add_comm 1 e]

/-- With the closed flag set, the reservation loop fails with EPIPE at once,
leaving counters and index untouched. -/
theorem reserveLoop_closed (cap : Nat) (n : Nat) (c : Nat → Nat) (idx : Nat) :
    reserveLoop true cap (n + 1) c idx = .fail .epipe c idx := by
  simp [reserveLoop]

/-- With all shard counters zero, every attempt of the reservation loop
fails: the decrement wraps to 2^32-1 (at least capacity), is undone, and the
index rotates; after the fuel runs out the loop reports EAGAIN with the
counters exactly restored. -/
theorem reserveLoop_allzero {cap : Nat} (hcap : cap < U32) :
    ∀ (n : Nat) (c : Nat → Nat) (idx : Nat), (∀ i < NROFSIZE, c i = 0) →
    idx < NROFSIZE →
    reserveLoop false cap n c idx
      = .fail .eagain c ((idx + n) % NROFSIZE) := by
  intro n
  induction n with
  | zero =>
    intro c idx hc hidx
    rw [Nat.add_zero, Nat.mod_eq_of_lt hidx]
    rfl
  | succ n ih =>
    intro c idx hc hidx
    have hv : (c idx + (U32 - 1)) % U32 = U32 - 1 := by
      rw [hc idx hidx, Nat.zero_add]
      exact Nat.mod_eq_of_lt (by decide)
    have hnlt : ¬ (U32 - 1 < cap) :=
      Nat.not_lt.mpr (Nat.le_pred_of_lt hcap)
    have hv1 : (U32 - 1 + 1) % U32 = 0 := by
      rw [Nat.sub_add_cancel (by decide), Nat.mod_self]
    have hrestore : upd c idx 0 = c := upd_self c idx (hc idx hidx)
    have hrot : ((idx + 1) % NROFSIZE + n) % NROFSIZE
        = (idx + (n + 1)) % NROFSIZE := shard_rot idx n
    simp only [reserveLoop, Bool.false_eq_true, if_false, hv, hnlt, hv1,
      upd_upd, hrestore, if_true, ite_self, if_pos rfl]
    rw [ih c ((idx + 1) % NROFSIZE) hc (Nat.mod_lt _ NROFSIZE_pos), hrot]

/-- If the first shard (in rotation order from the current index) with a
non-zero free count is d steps away and within the remaining fuel, the
reservation loop reserves exactly that shard: its counter is decremented by
one and the rotation index has advanced to it. -/
theorem reserveLoop_found {cap : Nat} (hcap : cap < U32) :
    ∀ (n : Nat) (c : Nat → Nat) (idx d : Nat), d < n → idx < NROFSIZE →
    (∀ i < NROFSIZE, c i ≤ cap) →
    (∀ e < d, c ((idx + e) % NROFSIZE) = 0) →
    c ((idx + d) % NROFSIZE) ≠ 0 →
    reserveLoop false cap n c idx
      = .reserved (upd c ((idx + d) % NROFSIZE)
          (c ((idx + d) % NROFSIZE) - 1))
        ((idx + d) % NROFSIZE) ((idx + d) % NROFSIZE) := by
  intro n
  induction n with
  | zero =>
    intro c idx d hd
    exact absurd hd (Nat.not_lt_zero _)
  | succ n ih =>
    intro c idx d hd hidx hbound hzero hfound
    cases d with
    | zero =>
      simp only [Nat.add_zero, Nat.mod_eq_of_lt hidx] at hfound ⊢
      have hle : c idx ≤ cap := hbound idx hidx
      obtain ⟨b, hb⟩ := Nat.exists_eq_succ_of_ne_zero hfound
      rw [hb] at hle
      have hblt : b < cap := Nat.lt_of_lt_of_le (Nat.lt_succ_self b) hle
      have hv : (c idx + (U32 - 1)) % U32 = c idx - 1 := by
        rw [hb, Nat.succ_sub_one]
        have h1 : b + 1 + (U32 - 1) = b + U32 := by
          clear hle hblt hfound hidx hd hb
          omega
        rw [h1, Nat.add_mod_right]
        exact Nat.mod_eq_of_lt (Nat.lt_trans hblt hcap)
      have hlt : c idx - 1 < cap := by
        rw [hb, Nat.succ_sub_one]
        exact hblt
      simp only [reserveLoop, Bool.false_eq_true, if_false, hv, hlt, if_true,
        if_pos rfl]
    | succ e =>
      have hc0 : c idx = 0 := by
        have := hzero 0 (Nat.succ_pos e)
        rwa [Nat.add_zero, Nat.mod_eq_of_lt hidx] at this
      have hv : (c idx + (U32 - 1)) % U32 = U32 - 1 := by
        rw [hc0, Nat.zero_add]
        exact Nat.mod_eq_of_lt (by decide)
      have hnlt : ¬ (U32 - 1 < cap) :=
        Nat.not_lt.mpr (Nat.le_pred_of_lt hcap)
      have hv1 : (U32 - 1 + 1) % U32 = 0 := by
        rw [Nat.sub_add_cancel (by decide), Nat.mod_self]
      have hrestore : upd c idx 0 = c := upd_self c idx hc0
      simp only [reserveLoop, Bool.false_eq_true, if_false, hv, hnlt, hv1,
        upd_upd, hrestore, if_true, ite_self, if_pos rfl]
      have hstep := ih c ((idx + 1) % NROFSIZE) e (Nat.lt_of_succ_lt_succ hd)
        (Nat.mod_lt _ NROFSIZE_pos) hbound
        (fun e' he' => by
          rw [shard_rot]
          exact hzero (e' + 1) (Nat.succ_lt_succ he'))
        (by rw [shard_rot]; exact hfound)
      rw [hstep, shard_rot]

/-- If any shard holds a non-zero count, there is a least rotation distance
at which the loop will find one. -/
theorem exists_least_shard (c : Nat → Nat) (idx : Nat) (hidx : idx < NROFSIZE)
    (i : Nat) (hi : i < NROFSIZE) (hne : c i ≠ 0) :
    ∃ d < NROFSIZE, c ((idx + d) % NROFSIZE) ≠ 0 ∧
      ∀ e < d, c ((idx + e) % NROFSIZE) = 0 := by
  have hP : c ((idx + (i + NROFSIZE - idx) % NROFSIZE) % NROFSIZE) ≠ 0 := by
    have h1 : (idx + (i + NROFSIZE - idx) % NROFSIZE) % NROFSIZE
        = (idx + (i + NROFSIZE - idx)) % NROFSIZE := Nat.add_mod_mod _ _ _
    have h2 : idx + (i + NROFSIZE - idx) = i + NROFSIZE :=
      Nat.add_sub_cancel'
        (Nat.le_trans (Nat.le_of_lt hidx) (Nat.le_add_left _ _))
    rw [h1, h2, Nat.add_mod_right, Nat.mod_eq_of_lt hi]
    exact hne
  have hex : ∃ d, c ((idx + d) % NROFSIZE) ≠ 0 :=
    ⟨(i + NROFSIZE - idx) % NROFSIZE, hP⟩
  classical
  refine ⟨Nat.find hex, ?_, Nat.find_spec hex, ?_⟩
  · calc Nat.find hex ≤ (i + NROFSIZE - idx) % NROFSIZE :=
          Nat.find_min' hex hP
      _ < NROFSIZE := Nat.mod_lt _ NROFSIZE_pos
  · intro e he
    by_contra hc
    exact Nat.find_min hex he hc

theorem Inv.cap_pos {q : IQueue} (h : Inv q) : 0 < q.capacity := by
  obtain ⟨k, _, _, hcap⟩ := h.cap_pow
  rw [hcap]
  exact Nat.pos_pow_of_pos k (by omega)

theorem Inv.cap_ge {q : IQueue} (h : Inv q) : NROFSIZE ≤ q.capacity := by
  obtain ⟨k, hk8, _, hcap⟩ := h.cap_pow
  rw [hcap, NROFSIZE_eq]
  calc (256 : Nat) = 2 ^ 8 := by norm_num
    _ ≤ 2 ^ k := Nat.pow_le_pow_right (by omega) hk8

theorem Inv.cap_ltU {q : IQueue} (h : Inv q) : q.capacity < U32 := by
  obtain ⟨k, _, hk32, hcap⟩ := h.cap_pow
  rw [hcap, U32_eq]
  calc 2 ^ k < 2 ^ 32 := Nat.pow_lt_pow_right (by omega) hk32
    _ = 4294967296 := by norm_num

theorem Inv.cap_dvd {q : IQueue} (h : Inv q) : q.capacity ∣ U32 := by
  obtain ⟨k, _, hk32, hcap⟩ := h.cap_pow
  rw [hcap]
  exact pow2_dvd_u32 hk32

theorem Inv.cap_dvd_shards {q : IQueue} (h : Inv q) :
    NROFSIZE ∣ q.capacity := by
  obtain ⟨k, hk8, _, hcap⟩ := h.cap_pow
  rw [hcap, NROFSIZE_eq]
  refine ⟨2 ^ (k - 8), ?_⟩
  have h8 : (256 : Nat) = 2 ^ 8 := by decide
  rw [h8, ← pow_add, Nat.add_sub_cancel' hk8]

theorem Inv.sizefree_le {q : IQueue} (h : Inv q) {i : Nat}
    (hi : i < NROFSIZE) : q.sizefree i ≤ q.capacity := by
  have hq := h.quota i hi
  have hd : q.capacity / NROFSIZE ≤ q.capacity := Nat.div_le_self _ _
  exact Nat.le_trans (Nat.le_trans (Nat.le_add_right _ _)
    (Nat.le_of_eq hq)) hd

theorem Inv.sizeused_le {q : IQueue} (h : Inv q) {i : Nat}
    (hi : i < NROFSIZE) : q.sizeused i ≤ q.capacity := by
  have hq := h.quota i hi
  have hd : q.capacity / NROFSIZE ≤ q.capacity := Nat.div_le_self _ _
  exact Nat.le_trans (Nat.le_trans (Nat.le_add_left _ _)
    (Nat.le_of_eq hq)) hd

/-- Replacing one slot of a sharded counter changes the sum accordingly. -/
theorem shardSum_upd {f : Nat → Nat} {i : Nat} (hi : i < NROFSIZE) (v : Nat) :
    shardSum (upd f i v) + f i = shardSum f + v := by
  unfold shardSum
  have hmem : i ∈ Finset.range NROFSIZE := Finset.mem_range.mpr hi
  rw [← Finset.add_sum_erase _ (upd f i v) hmem,
    ← Finset.add_sum_erase _ f hmem]
  have herase : ∑ x ∈ (Finset.range NROFSIZE).erase i, upd f i v x
      = ∑ x ∈ (Finset.range NROFSIZE).erase i, f x := by
    apply Finset.sum_congr rfl
    intro x hx
    exact upd_other f v (Finset.ne_of_mem_erase hx)
  rw [herase, upd_same]
  ring

/-- The stored-message count never exceeds capacity: each shard holds at
most the quota and the 256 quotas sum to the capacity. -/
theorem shardSum_le_cap {q : IQueue} (h : Inv q) :
    shardSum q.sizeused ≤ q.capacity := by
  calc shardSum q.sizeused
      ≤ ∑ _i ∈ Finset.range NROFSIZE, q.capacity / NROFSIZE := by
        apply Finset.sum_le_sum
        intro i hi
        have hq := h.quota i (Finset.mem_range.mp hi)
        omega
    _ = NROFSIZE * (q.capacity / NROFSIZE) := by
        rw [Finset.sum_const, Finset.card_range, smul_eq_mul]
    _ = q.capacity := Nat.mul_div_cancel' h.cap_dvd_shards

/-- If some shard still has free slots, the stored-message count is
strictly below capacity. -/
theorem shardSum_lt_cap {q : IQueue} (h : Inv q) {j : Nat}
    (hj : j < NROFSIZE) (hfree : q.sizefree j ≠ 0) :
    shardSum q.sizeused < q.capacity := by
  have hqj := h.quota j hj
  calc shardSum q.sizeused
      < ∑ _i ∈ Finset.range NROFSIZE, q.capacity / NROFSIZE := by
        apply Finset.sum_lt_sum
        · intro i hi
          have hq := h.quota i (Finset.mem_range.mp hi)
          exact Nat.le_trans (Nat.le_add_left _ _) (Nat.le_of_eq hq)
        · exact ⟨j, Finset.mem_range.mpr hj,
            Nat.lt_of_lt_of_le
              (Nat.lt_add_of_pos_left (Nat.pos_of_ne_zero hfree))
              (Nat.le_of_eq hqj)⟩
    _ = NROFSIZE * (q.capacity / NROFSIZE) := by
        rw [Finset.sum_const, Finset.card_range, smul_eq_mul]
    _ = q.capacity := Nat.mul_div_cancel' h.cap_dvd_shards

/-- The bitmask by capacity-1 in the position claim is reduction modulo the
capacity, a power of two. -/
theorem mask_mod {q : IQueue} (h : Inv q) (x : Nat) :
    x &&& (q.capacity - 1) = x % q.capacity := by
  obtain ⟨k, _, _, hcap⟩ := h.cap_pow
  rw [hcap]
  exact Nat.and_pow_two_sub_one_eq_mod x k

/-- A uint32 wrap inside an addition is invisible modulo any divisor of
2^32. -/
theorem add_mod_u32_mod {cap : Nat} (hdvd : cap ∣ U32) (a b : Nat) :
    (a % U32 + b) % cap = (a + b) % cap := by
  conv_lhs => rw [Nat.add_mod]
  rw [Nat.mod_mod_of_dvd _ hdvd, ← Nat.add_mod]

theorem reserveLoop_closed_N (cap : Nat) (c : Nat → Nat) (idx : Nat) :
    reserveLoop true cap NROFSIZE c idx = .fail .epipe c idx :=
  reserveLoop_closed cap 255 c idx

/-- trysend_iqueue rejects the empty-sentinel handle outright. -/
theorem trysend_einval (q : IQueue) : trysend q 0 = .err .einval q := rfl

/-- trysend_iqueue on a closed queue fails with EPIPE on the first attempt,
before any counter is touched. -/
theorem trysend_closed {q : IQueue} {m : Nat} (hcl : q.closed = true)
    (hm : m ≠ 0) : trysend q m = .err .epipe q := by
  have hres : reserveLoop q.closed q.capacity NROFSIZE q.sizefree q.ifree
      = .fail .epipe q.sizefree q.ifree := by
    rw [hcl]
    exact reserveLoop_closed_N _ _ _
  unfold trysend
  rw [if_neg hm, hres]

/-- tryrecv_iqueue on a closed queue fails with EPIPE on the first attempt,
before any counter is touched. -/
theorem tryrecv_closed {q : IQueue} (hcl : q.closed = true) :
    tryrecv q = .err .epipe q := by
  have hres : reserveLoop q.closed q.capacity NROFSIZE q.sizeused q.iused
      = .fail .epipe q.sizeused q.iused := by
    rw [hcl]
    exact reserveLoop_closed_N _ _ _
  unfold tryrecv
  rw [hres]

/-- trysend_iqueue with every free shard empty fails with EAGAIN after the
256 attempts, with all counters and the rotation index restored. -/
theorem trysend_eagain {q : IQueue} {m : Nat} (h : Inv q)
    (hm : m ≠ 0) (hcl : q.closed = false)
    (hzero : ∀ i < NROFSIZE, q.sizefree i = 0) :
    trysend q m = .err .eagain q := by
  have hidx : (q.ifree + NROFSIZE) % NROFSIZE = q.ifree := by
    rw [Nat.add_mod_right]
    exact Nat.mod_eq_of_lt h.ifree_lt
  have hres : reserveLoop q.closed q.capacity NROFSIZE q.sizefree q.ifree
      = .fail .eagain q.sizefree q.ifree := by
    rw [hcl,
      reserveLoop_allzero h.cap_ltU NROFSIZE q.sizefree q.ifree hzero
        h.ifree_lt, hidx]
  unfold trysend
  rw [if_neg hm, hres]

/-- tryrecv_iqueue with every used shard empty fails with EAGAIN after the
256 attempts, with all counters and the rotation index restored. -/
theorem tryrecv_eagain {q : IQueue} (h : Inv q) (hcl : q.closed = false)
    (hzero : ∀ i < NROFSIZE, q.sizeused i = 0) :
    tryrecv q = .err .eagain q := by
  have hidx : (q.iused + NROFSIZE) % NROFSIZE = q.iused := by
    rw [Nat.add_mod_right]
    exact Nat.mod_eq_of_lt h.iused_lt
  have hres : reserveLoop q.closed q.capacity NROFSIZE q.sizeused q.iused
      = .fail .eagain q.sizeused q.iused := by
    rw [hcl,
      reserveLoop_allzero h.cap_ltU NROFSIZE q.sizeused q.iused hzero
        h.iused_lt, hidx]
  unfold tryrecv
  rw [hres]

/-- trysend_iqueue with some free shard non-empty: a shard j is reserved
(free count decremented), the message is published in the cell at
writepos mod capacity -- empty by the window invariant -- writepos is
advanced, and the used count of shard j is incremented. -/
theorem trysend_ok {q : IQueue} {m : Nat} (h : Inv q) (hm : m ≠ 0)
    (hcl : q.closed = false) {i : Nat} (hi : i < NROFSIZE)
    (hnz : q.sizefree i ≠ 0) :
    ∃ j, j < NROFSIZE ∧ q.sizefree j ≠ 0 ∧
      trysend q m = .ok
        { q with
          sizefree := upd q.sizefree j (q.sizefree j - 1)
          ifree := j
          writepos := (q.writepos + 1) % U32
          msg := upd q.msg (q.writepos % q.capacity) m
          sizeused := upd q.sizeused j (q.sizeused j + 1) } := by
  obtain ⟨d, hd, hfound, hzero⟩ :=
    exists_least_shard q.sizefree q.ifree h.ifree_lt i hi hnz
  set j := (q.ifree + d) % NROFSIZE with hj
  have hjlt : j < NROFSIZE := Nat.mod_lt _ NROFSIZE_pos
  refine ⟨j, hjlt, hfound, ?_⟩
  have hres : reserveLoop q.closed q.capacity NROFSIZE q.sizefree q.ifree
      = .reserved (upd q.sizefree j (q.sizefree j - 1)) j j := by
    rw [hcl]
    exact reserveLoop_found h.cap_ltU NROFSIZE q.sizefree q.ifree d hd
      h.ifree_lt (fun i' hi' => h.sizefree_le hi') hzero hfound
  have hSlt : shardSum q.sizeused < q.capacity := shardSum_lt_cap h hjlt hfound
  have hwin : q.msg (q.writepos % q.capacity) = 0 := by
    have hwc : q.writepos % q.capacity
        = (q.readpos + shardSum q.sizeused) % q.capacity := by
      rw [h.wpos_eq, Nat.mod_mod_of_dvd _ h.cap_dvd]
    apply h.cells_out _ (Nat.mod_lt _ h.cap_pos)
    intro jj hjj heq
    rw [hwc] at heq
    exact absurd (window_inj hSlt (Nat.lt_trans hjj hSlt) heq)
      (Nat.ne_of_gt hjj)
  have huse : (q.sizeused j + 1) % U32 = q.sizeused j + 1 := by
    have h1 := h.quota j hjlt
    have h2 := h.cap_ltU
    have h3 : q.capacity / NROFSIZE < q.capacity :=
      Nat.div_lt_self h.cap_pos (by decide)
    exact Nat.mod_eq_of_lt (Nat.lt_of_le_of_lt
      (Nat.le_trans
        (Nat.succ_le_succ (Nat.le_trans (Nat.le_add_left _ _)
          (Nat.le_of_eq h1))) h3) h2)
  unfold trysend
  rw [if_neg hm, hres]
  dsimp only
  rw [mask_mod h, if_pos hwin, huse]

/-- tryrecv_iqueue with some used shard non-empty: a shard j is reserved
(used count decremented), the non-empty cell at readpos mod capacity is
claimed and its handle returned, readpos is advanced, and the free count of
shard j is incremented. -/
theorem tryrecv_ok {q : IQueue} (h : Inv q) (hcl : q.closed = false)
    {i : Nat} (hi : i < NROFSIZE) (hnz : q.sizeused i ≠ 0) :
    ∃ j, j < NROFSIZE ∧ q.sizeused j ≠ 0 ∧
      q.msg (q.readpos % q.capacity) ≠ 0 ∧
      tryrecv q = .ok (q.msg (q.readpos % q.capacity))
        { q with
          sizeused := upd q.sizeused j (q.sizeused j - 1)
          iused := j
          readpos := (q.readpos + 1) % U32
          msg := upd q.msg (q.readpos % q.capacity) 0
          sizefree := upd q.sizefree j (q.sizefree j + 1) } := by
  obtain ⟨d, hd, hfound, hzero⟩ :=
    exists_least_shard q.sizeused q.iused h.iused_lt i hi hnz
  set j := (q.iused + d) % NROFSIZE with hj
  have hjlt : j < NROFSIZE := Nat.mod_lt _ NROFSIZE_pos
  have hSpos : 0 < shardSum q.sizeused := by
    have hle : q.sizeused j ≤ shardSum q.sizeused := by
      unfold shardSum
      exact Finset.single_le_sum (fun i' _ => Nat.zero_le _)
        (Finset.mem_range.mpr hjlt)
    exact Nat.lt_of_lt_of_le (Nat.pos_of_ne_zero hfound) hle
  have hcell : q.msg (q.readpos % q.capacity) ≠ 0 := by
    have h0 := h.cells_in 0 hSpos
    rwa [Nat.add_zero] at h0
  refine ⟨j, hjlt, hfound, hcell, ?_⟩
  have hres : reserveLoop q.closed q.capacity NROFSIZE q.sizeused q.iused
      = .reserved (upd q.sizeused j (q.sizeused j - 1)) j j := by
    rw [hcl]
    exact reserveLoop_found h.cap_ltU NROFSIZE q.sizeused q.iused d hd
      h.iused_lt (fun i' hi' => h.sizeused_le hi') hzero hfound
  have hfree : (q.sizefree j + 1) % U32 = q.sizefree j + 1 := by
    have h1 := h.quota j hjlt
    have h2 := h.cap_ltU
    have h3 : q.capacity / NROFSIZE < q.capacity :=
      Nat.div_lt_self h.cap_pos (by decide)
    exact Nat.mod_eq_of_lt (Nat.lt_of_le_of_lt
      (Nat.le_trans
        (Nat.succ_le_succ (Nat.le_trans (Nat.le_add_right _ _)
          (Nat.le_of_eq h1))) h3) h2)
  unfold tryrecv
  rw [hres]
  dsimp only
  rw [mask_mod h, if_neg hcell, hfree]

theorem shardSum_zero : shardSum (fun _ => 0) = 0 := by
  unfold shardSum
  exact Finset.sum_const_zero

theorem U32_pos : 0 < U32 := by
  rw [U32_eq]
  omega

/-- A successful trysend_iqueue preserves the sequential invariant: the
message count grows by one and the published cell extends the window at its
write end. -/
theorem trysend_ok_inv {q : IQueue} {m : Nat} (h : Inv q) (hm : m ≠ 0)
    {j : Nat} (hjlt : j < NROFSIZE) (hfree : q.sizefree j ≠ 0) :
    Inv { q with
          sizefree := upd q.sizefree j (q.sizefree j - 1)
          ifree := j
          writepos := (q.writepos + 1) % U32
          msg := upd q.msg (q.writepos % q.capacity) m
          sizeused := upd q.sizeused j (q.sizeused j + 1) } := by
  have hSlt : shardSum q.sizeused < q.capacity := shardSum_lt_cap h hjlt hfree
  have hS' : shardSum (upd q.sizeused j (q.sizeused j + 1))
      = shardSum q.sizeused + 1 := by
    have hsum := shardSum_upd hjlt (q.sizeused j + 1) (f := q.sizeused)
    clear hm hfree hSlt hjlt
    omega
  have hpos : q.writepos % q.capacity
      = (q.readpos + shardSum q.sizeused) % q.capacity := by
    rw [h.wpos_eq, Nat.mod_mod_of_dvd _ h.cap_dvd]
  refine ⟨h.cap_pow, hjlt, h.iused_lt, ?_, ?_, h.rpos_lt, ?_, ?_⟩
  · dsimp only
    intro i hi
    by_cases hij : i = j
    · subst hij
      show upd q.sizefree i (q.sizefree i - 1) i
          + upd q.sizeused i (q.sizeused i + 1) i = q.capacity / NROFSIZE
      rw [upd_same, upd_same]
      have hq := h.quota i hi
      obtain ⟨b, hb⟩ := Nat.exists_eq_succ_of_ne_zero hfree
      rw [hb] at hq
      rw [hb, Nat.succ_sub_one]
      clear hm hSlt hS' hpos hi hfree hb
      omega
    · show upd q.sizefree j (q.sizefree j - 1) i
          + upd q.sizeused j (q.sizeused j + 1) i = _
      rw [upd_other _ _ hij, upd_other _ _ hij]
      exact h.quota i hi
  · dsimp only
    show (q.writepos + 1) % U32
      = (q.readpos + shardSum (upd q.sizeused j (q.sizeused j + 1))) % U32
    rw [hS', h.wpos_eq, add_mod_u32_mod (dvd_refl U32), Nat.add_assoc]
  · dsimp only
    intro jj hjj
    rw [hS'] at hjj
    show upd q.msg (q.writepos % q.capacity) m
        ((q.readpos + jj) % q.capacity) ≠ 0
    by_cases hjjS : jj < shardSum q.sizeused
    · have hne : (q.readpos + jj) % q.capacity ≠ q.writepos % q.capacity := by
        intro hx
        rw [hpos] at hx
        exact absurd (window_inj (Nat.lt_trans hjjS hSlt) hSlt hx)
          (Nat.ne_of_lt hjjS)
      rw [upd_other _ _ hne]
      exact h.cells_in jj hjjS
    · have hjjS' : jj = shardSum q.sizeused := by
        clear hm hfree hSlt hS' hpos
        omega
      rw [hjjS', ← hpos, upd_same]
      exact hm
  · dsimp only
    intro p hp hout
    rw [hS'] at hout
    have hpne : p ≠ q.writepos % q.capacity := by
      intro hx
      exact hout (shardSum q.sizeused) (Nat.lt_succ_self _) (by rw [hx, hpos])
    show upd q.msg (q.writepos % q.capacity) m p = 0
    rw [upd_other _ _ hpne]
    exact h.cells_out p hp (fun jj hjj => hout jj (Nat.lt_succ_of_lt hjj))

/-- A successful tryrecv_iqueue preserves the sequential invariant: the
message count shrinks by one and the window loses its cell at the read
end. -/
theorem tryrecv_ok_inv {q : IQueue} (h : Inv q)
    {j : Nat} (hjlt : j < NROFSIZE) (hused : q.sizeused j ≠ 0) :
    Inv { q with
          sizeused := upd q.sizeused j (q.sizeused j - 1)
          iused := j
          readpos := (q.readpos + 1) % U32
          msg := upd q.msg (q.readpos % q.capacity) 0
          sizefree := upd q.sizefree j (q.sizefree j + 1) } := by
  have hSpos : 0 < shardSum q.sizeused := by
    have hle : q.sizeused j ≤ shardSum q.sizeused := by
      unfold shardSum
      exact Finset.single_le_sum (fun i' _ => Nat.zero_le _)
        (Finset.mem_range.mpr hjlt)
    exact Nat.lt_of_lt_of_le (Nat.pos_of_ne_zero hused) hle
  have hSle : shardSum q.sizeused ≤ q.capacity := shardSum_le_cap h
  have hS' : shardSum (upd q.sizeused j (q.sizeused j - 1)) + 1
      = shardSum q.sizeused := by
    obtain ⟨b, hb⟩ := Nat.exists_eq_succ_of_ne_zero hused
    have hsum := shardSum_upd hjlt (q.sizeused j - 1) (f := q.sizeused)
    rw [hb, Nat.succ_sub_one] at hsum
    rw [hb, Nat.succ_sub_one]
    clear hSpos hSle hjlt hused hb
    omega
  have hshift : ∀ jj : Nat, ((q.readpos + 1) % U32 + jj) % q.capacity
      = (q.readpos + (jj + 1)) % q.capacity := by
    intro jj
    rw [add_mod_u32_mod h.cap_dvd, Nat.add_assoc, Nat.add_comm 1 jj]
  have hr0 : (q.readpos + 0) % q.capacity = q.readpos % q.capacity := by
    rw [Nat.add_zero]
  refine ⟨h.cap_pow, h.ifree_lt, hjlt, ?_, ?_, Nat.mod_lt _ U32_pos, ?_, ?_⟩
  · dsimp only
    intro i hi
    by_cases hij : i = j
    · subst hij
      show upd q.sizefree i (q.sizefree i + 1) i
          + upd q.sizeused i (q.sizeused i - 1) i = q.capacity / NROFSIZE
      rw [upd_same, upd_same]
      have hq := h.quota i hi
      obtain ⟨b, hb⟩ := Nat.exists_eq_succ_of_ne_zero hused
      rw [hb] at hq
      rw [hb, Nat.succ_sub_one]
      clear hSpos hSle hS' hr0 hi hused hb
      omega
    · show upd q.sizefree j (q.sizefree j + 1) i
          + upd q.sizeused j (q.sizeused j - 1) i = _
      rw [upd_other _ _ hij, upd_other _ _ hij]
      exact h.quota i hi
  · dsimp only
    show q.writepos
      = ((q.readpos + 1) % U32
          + shardSum (upd q.sizeused j (q.sizeused j - 1))) % U32
    rw [add_mod_u32_mod (dvd_refl U32), h.wpos_eq]
    have harith : q.readpos + 1 + shardSum (upd q.sizeused j
        (q.sizeused j - 1)) = q.readpos + shardSum q.sizeused := by
      clear hSpos hSle hr0 hused
      omega
    rw [harith]
  · dsimp only
    intro jj hjj
    show upd q.msg (q.readpos % q.capacity) 0
        (((q.readpos + 1) % U32 + jj) % q.capacity) ≠ 0
    rw [hshift jj]
    have hne : (q.readpos + (jj + 1)) % q.capacity
        ≠ q.readpos % q.capacity := by
      intro hx
      rw [← hr0] at hx
      have hjj1 : jj + 1 < q.capacity := by
        clear hx hr0 hused
        omega
      exact absurd (window_inj hjj1 h.cap_pos hx) (Nat.succ_ne_zero jj)
    rw [upd_other _ _ hne]
    refine h.cells_in (jj + 1) ?_
    clear hne hr0 hused hSle
    omega
  · dsimp only
    intro p hp hout
    by_cases hpr : p = q.readpos % q.capacity
    · subst hpr
      show upd q.msg (q.readpos % q.capacity) 0 (q.readpos % q.capacity) = 0
      exact upd_same _ _ _
    · show upd q.msg (q.readpos % q.capacity) 0 p = 0
      rw [upd_other _ _ hpr]
      refine h.cells_out p hp ?_
      intro jj hjj
      cases jj with
      | zero =>
        rw [hr0]
        exact hpr
      | succ jj' =>
        rw [← hshift jj']
        refine hout jj' ?_
        rw [← hS'] at hjj
        exact Nat.lt_of_succ_lt_succ hjj

/-- The state built by new_iqueue for the minimum capacity 256 satisfies
the sequential invariant. -/
theorem initQueue_inv : Inv (initQueue 256) := by
  refine ⟨⟨8, by omega, by omega, by decide⟩, by decide, by decide,
    ?_, ?_, U32_pos, ?_, ?_⟩
  · intro i hi
    rfl
  · have h0 : shardSum ((initQueue 256).sizeused) = 0 := shardSum_zero
    rw [h0]
    rfl
  · intro jj hjj
    have h0 : shardSum ((initQueue 256).sizeused) = 0 := shardSum_zero
    omega
  · intro p hp hout
    rfl

/-- C1: trysend_iqueue returns EINVAL on the null handle; EPIPE when the
closed flag is set at the start of an attempt; EAGAIN, with the state fully
restored, when all 256 shard-reservation attempts fail (every free shard
count is zero); otherwise it reserves a slot in some shard j (decrementing
sizefree[j]), publishes the message into the cell at writepos mod capacity,
advances writepos, increments sizeused[j], and returns 0. -/
theorem C1_trysend_spec (q : IQueue) (m : Nat) (h : Inv q) :
    (m = 0 → trysend q m = .err .einval q) ∧
    (m ≠ 0 → q.closed = true → trysend q m = .err .epipe q) ∧
    (m ≠ 0 → q.closed = false → (∀ i < NROFSIZE, q.sizefree i = 0) →
      trysend q m = .err .eagain q) ∧
    (m ≠ 0 → q.closed = false → ∀ i, i < NROFSIZE → q.sizefree i ≠ 0 →
      ∃ j q', j < NROFSIZE ∧ q.sizefree j ≠ 0 ∧ trysend q m = .ok q' ∧
        q'.sizefree j = q.sizefree j - 1 ∧
        q'.sizeused j = q.sizeused j + 1 ∧
        q'.msg (q.writepos % q.capacity) = m ∧
        q'.writepos = (q.writepos + 1) % U32) := by
  refine ⟨?_, ?_, ?_, ?_⟩
  · intro hm
    subst hm
    exact trysend_einval q
  · intro hm hcl
    exact trysend_closed hcl hm
  · intro hm hcl hz
    exact trysend_eagain h hm hcl hz
  · intro hm hcl i hi hnz
    obtain ⟨j, hj, hfree, heq⟩ := trysend_ok h hm hcl hi hnz
    exact ⟨j, _, hj, hfree, heq, upd_same _ _ _, upd_same _ _ _,
      upd_same _ _ _, rfl⟩

/-- Witness for C1 at the freshly constructed queue of capacity 256: the
null handle is rejected, and sending handle 5 succeeds. -/
theorem C1_trysend_spec_witness :
    trysend (initQueue 256) 0 = .err .einval (initQueue 256) ∧
    ∃ j q', j < NROFSIZE ∧ (initQueue 256).sizefree j ≠ 0 ∧
      trysend (initQueue 256) 5 = .ok q' ∧
      q'.sizefree j = (initQueue 256).sizefree j - 1 ∧
      q'.sizeused j = (initQueue 256).sizeused j + 1 ∧
      q'.msg ((initQueue 256).writepos % (initQueue 256).capacity) = 5 ∧
      q'.writepos = ((initQueue 256).writepos + 1) % U32 :=
  ⟨(C1_trysend_spec (initQueue 256) 0 initQueue_inv).1 rfl,
   (C1_trysend_spec (initQueue 256) 5 initQueue_inv).2.2.2 (by decide) rfl
     0 (by decide) (by decide)⟩

/-- C5: in the sequential embedding, trysend_iqueue and tryrecv_iqueue
always return: the reservation loop is bounded by the 256 attempts and,
from any state satisfying the invariant, the cell-CAS spin loops exit as
soon as the reservation has succeeded (the spin outcome is impossible);
moreover every returned state satisfies the invariant again, so this holds
along every sequential execution. -/
theorem C5_try_ops_never_block (q : IQueue) (m : Nat) (h : Inv q) :
    (∀ qs, trysend q m ≠ .spin qs) ∧ (∀ qs, tryrecv q ≠ .spin qs) ∧
    (∀ q', trysend q m = .ok q' → Inv q') ∧
    (∀ rc q', trysend q m = .err rc q' → Inv q') ∧
    (∀ m' q', tryrecv q = .ok m' q' → Inv q') ∧
    (∀ rc q', tryrecv q = .err rc q' → Inv q') := by
  have hsend : (∃ q', trysend q m = .ok q' ∧ Inv q') ∨
      (∃ rc, trysend q m = .err rc q) := by
    by_cases hm : m = 0
    · subst hm
      exact Or.inr ⟨.einval, trysend_einval q⟩
    · by_cases hcl : q.closed = true
      · exact Or.inr ⟨.epipe, trysend_closed hcl hm⟩
      · have hclf : q.closed = false := by
          simpa using hcl
        by_cases hz : ∀ i < NROFSIZE, q.sizefree i = 0
        · exact Or.inr ⟨.eagain, trysend_eagain h hm hclf hz⟩
        · push_neg at hz
          obtain ⟨i, hi, hnz⟩ := hz
          obtain ⟨j, hj, hfree, heq⟩ := trysend_ok h hm hclf hi hnz
          exact Or.inl ⟨_, heq, trysend_ok_inv h hm hj hfree⟩
  have hrecv : (∃ m' q', tryrecv q = .ok m' q' ∧ Inv q') ∨
      (∃ rc, tryrecv q = .err rc q) := by
    by_cases hcl : q.closed = true
    · exact Or.inr ⟨.epipe, tryrecv_closed hcl⟩
    · have hclf : q.closed = false := by
        simpa using hcl
      by_cases hz : ∀ i < NROFSIZE, q.sizeused i = 0
      · exact Or.inr ⟨.eagain, tryrecv_eagain h hclf hz⟩
      · push_neg at hz
        obtain ⟨i, hi, hnz⟩ := hz
        obtain ⟨j, hj, hused, _hcell, heq⟩ := tryrecv_ok h hclf hi hnz
        exact Or.inl ⟨_, _, heq, tryrecv_ok_inv h hj hused⟩
  refine ⟨?_, ?_, ?_, ?_, ?_, ?_⟩
  · intro qs hspin
    rcases hsend with ⟨q', heq, _⟩ | ⟨rc, heq⟩ <;>
      rw [heq] at hspin <;> exact SendRes.noConfusion hspin
  · intro qs hspin
    rcases hrecv with ⟨m', q', heq, _⟩ | ⟨rc, heq⟩ <;>
      rw [heq] at hspin <;> exact RecvRes.noConfusion hspin
  · intro q' hq'
    rcases hsend with ⟨q0, heq, hInv⟩ | ⟨rc, heq⟩ <;> rw [heq] at hq'
    · cases hq'
      exact hInv
    · exact SendRes.noConfusion hq'
  · intro rc q' hq'
    rcases hsend with ⟨q0, heq, hInv⟩ | ⟨rc0, heq⟩ <;> rw [heq] at hq'
    · exact SendRes.noConfusion hq'
    · cases hq'
      exact h
  · intro m' q' hq'
    rcases hrecv with ⟨m0, q0, heq, hInv⟩ | ⟨rc, heq⟩ <;> rw [heq] at hq'
    · cases hq'
      exact hInv
    · exact RecvRes.noConfusion hq'
  · intro rc q' hq'
    rcases hrecv with ⟨m0, q0, heq, hInv⟩ | ⟨rc0, heq⟩ <;> rw [heq] at hq'
    · exact RecvRes.noConfusion hq'
    · cases hq'
      exact h

/-- Witness for C5 at the freshly constructed queue of capacity 256. -/
theorem C5_try_ops_never_block_witness :
    trysend (initQueue 256) 5 ≠ SendRes.spin (initQueue 256) ∧
    tryrecv (initQueue 256) ≠ RecvRes.spin (initQueue 256) :=
  ⟨(C5_try_ops_never_block (initQueue 256) 5 initQueue_inv).1 _,
   (C5_try_ops_never_block (initQueue 256) 5 initQueue_inv).2.1 _⟩

/-- Eta-expansion of an SPSC queue state whose closed flag is known false. -/
theorem IQueue1.eta_closed (q : IQueue1) (h : q.closed = false) :
    ({ capacity := q.capacity, closed := false, readpos := q.readpos,
       writepos := q.writepos, msg := q.msg } : IQueue1) = q := by
  rw [← h]

/-- C2: trysend_iqueue1 and tryrecv_iqueue1 refine a bounded FIFO list of
at most capacity elements, via the abstraction relation AbsR: a successful
send appends its handle at the tail, a successful receive removes and
returns the head, a send on a full list and a receive on an empty list
fail with EAGAIN leaving the state unchanged.  Hence handles enqueued
earlier are received earlier: the SPSC queue is FIFO. -/
theorem C2_spsc_fifo_refinement (q : IQueue1) (l : List Nat) (m : Nat)
    (hR : AbsR q l) (hcl : q.closed = false) :
    (m ≠ 0 → (l.length < q.capacity →
        ∃ q', trysend1 q m = (RC.ok, q') ∧ AbsR q' (l ++ [m])) ∧
      (l.length = q.capacity → trysend1 q m = (RC.eagain, q))) ∧
    (l = [] → tryrecv1 q = (RC.eagain, 0, q)) ∧
    (∀ h t, l = h :: t → ∃ q', tryrecv1 q = (RC.ok, h, q') ∧ AbsR q' t) := by
  obtain ⟨hcap, hcapU, hrlt, hw, hlen, hcells, hnz, hemp⟩ := hR
  have hwlt : q.writepos < q.capacity := by
    rw [hw]; exact Nat.mod_lt _ hcap
  refine ⟨fun hm => ⟨fun hlt => ?_, fun hfull => ?_⟩, fun hnil => ?_,
    fun hd tl hcons => ?_⟩
  · -- send onto a non-full queue appends
    have hwin : ∀ j < l.length, q.writepos ≠ (q.readpos + j) % q.capacity := by
      intro j hj heq
      rw [hw] at heq
      exact absurd (window_inj hlt (Nat.lt_trans hj hlt) heq)
        (Nat.ne_of_gt hj)
    have hcell : q.msg q.writepos = 0 := hemp _ hwlt hwin
    refine ⟨{ q with
              writepos := (q.writepos + 1) % q.capacity
              msg := upd q.msg q.writepos m }, ?_, ?_⟩
    · unfold trysend1
      rw [if_neg hm, hcl]
      simp [hcell, spsc_advance hwlt hcapU]
    · refine ⟨hcap, hcapU, hrlt, ?_, ?_, ?_, ?_, ?_⟩
      · show (q.writepos + 1) % q.capacity
            = (q.readpos + (l ++ [m]).length) % q.capacity
        rw [hw, Nat.mod_add_mod, List.length_append, List.length_singleton,
          Nat.add_assoc]
      · simpa using hlt
      · intro j hj
        rw [List.length_append, List.length_singleton] at hj
        by_cases hjl : j < l.length
        · have hne : (q.readpos + j) % q.capacity ≠ q.writepos :=
            fun hx => hwin j hjl hx.symm
          show upd q.msg q.writepos m ((q.readpos + j) % q.capacity) = _
          rw [upd_other _ _ hne, hcells j hjl]
          simp [List.getElem_append_left, hjl]
        · have hjL : j = l.length :=
            Nat.le_antisymm (Nat.lt_succ_iff.mp hj) (Nat.not_lt.mp hjl)
          subst hjL
          show upd q.msg q.writepos m ((q.readpos + l.length) % q.capacity) = _
          rw [← hw, upd_same]
          simp
      · intro x hx
        rcases List.mem_append.mp hx with hxl | hxm
        · exact hnz x hxl
        · simp at hxm
          rw [hxm]
          exact hm
      · intro p hp hpw
        have hpold : ∀ j < l.length, p ≠ (q.readpos + j) % q.capacity := by
          intro j hj
          exact hpw j (by simp; exact Nat.lt_succ_of_lt hj)
        have hpne : p ≠ q.writepos := by
          intro hx
          exact hpw l.length (by simp) (by rw [hx, hw])
        show upd q.msg q.writepos m p = 0
        rw [upd_other _ _ hpne]
        exact hemp p hp hpold
  · -- send onto a full queue fails and rolls back
    have hwr : q.writepos = q.readpos := by
      rw [hw, hfull, Nat.add_mod_right]
      exact Nat.mod_eq_of_lt hrlt
    have hlpos : 0 < l.length := by
      rw [hfull]
      exact hcap
    have hcell : q.msg q.writepos ≠ 0 := by
      have h0 : q.msg ((q.readpos + 0) % q.capacity) = l.get ⟨0, hlpos⟩ :=
        hcells 0 hlpos
      rw [Nat.add_zero, Nat.mod_eq_of_lt hrlt] at h0
      rw [hwr, h0]
      exact hnz _ (l.get_mem _ _)
    unfold trysend1
    rw [if_neg hm, hcl]
    simp [hcell, IQueue1.eta_closed q hcl]
  · -- receive from an empty queue fails and rolls back
    subst hnil
    have hwr : q.writepos = q.readpos := by
      rw [hw]
      simpa using Nat.mod_eq_of_lt hrlt
    have hcell : q.msg q.readpos = 0 := by
      refine hemp _ hrlt ?_
      intro j hj
      simp at hj
    unfold tryrecv1
    rw [hcl]
    simp [hcell, IQueue1.eta_closed q hcl]
  · -- receive from a non-empty queue removes and returns the head
    subst hcons
    have hlpos : 0 < (hd :: tl).length := by simp
    have hcell : q.msg q.readpos = hd := by
      have h0 := hcells 0 hlpos
      rwa [Nat.add_zero, Nat.mod_eq_of_lt hrlt] at h0
    have hhd : hd ≠ 0 := hnz hd (List.mem_cons_self hd tl)
    refine ⟨{ q with
              readpos := (q.readpos + 1) % q.capacity
              msg := upd q.msg q.readpos 0 }, ?_, ?_⟩
    · unfold tryrecv1
      rw [hcl]
      simp [hcell, hhd, spsc_advance hrlt hcapU]
    · have hLl : (hd :: tl).length = tl.length + 1 := by simp
      refine ⟨hcap, hcapU, Nat.mod_lt _ hcap, ?_, ?_, ?_, ?_, ?_⟩
      · show q.writepos = ((q.readpos + 1) % q.capacity + tl.length) % q.capacity
        rw [Nat.mod_add_mod, hw, hLl, Nat.add_assoc, Nat.add_comm 1 tl.length]
      · show tl.length ≤ q.capacity
        have hlen' := hlen
        rw [hLl] at hlen'
        exact Nat.le_of_succ_le hlen'
      · intro j hj
        have hj1 : j + 1 < (hd :: tl).length := by
          simp
          exact hj
        have hpos : ((q.readpos + 1) % q.capacity + j) % q.capacity
            = (q.readpos + (j + 1)) % q.capacity := by
          rw [Nat.mod_add_mod, Nat.add_assoc, Nat.add_comm 1 j]
        have hne : (q.readpos + (j + 1)) % q.capacity ≠ q.readpos := by
          intro hx
          have hx' : (q.readpos + (j + 1)) % q.capacity
              = (q.readpos + 0) % q.capacity := by
            rw [hx, Nat.add_zero, Nat.mod_eq_of_lt hrlt]
          have hj1c : j + 1 < q.capacity := Nat.lt_of_lt_of_le hj1 hlen
          exact absurd (window_inj hj1c hcap hx') (Nat.succ_ne_zero j)
        show upd q.msg q.readpos 0 (((q.readpos + 1) % q.capacity + j)
          % q.capacity) = _
        rw [hpos, upd_other _ _ hne, hcells (j + 1) hj1]
        rfl
      · intro x hx
        exact hnz x (List.mem_cons_of_mem hd hx)
      · intro p hp hpt
        by_cases hpr : p = q.readpos
        · subst hpr
          show upd q.msg q.readpos 0 q.readpos = 0
          exact upd_same _ _ _
        · have hpold : ∀ j < (hd :: tl).length,
              p ≠ (q.readpos + j) % q.capacity := by
            intro j hj
            cases j with
            | zero =>
              rw [Nat.add_zero, Nat.mod_eq_of_lt hrlt]
              exact hpr
            | succ j' =>
              have hj' : j' < tl.length := by
                rw [hLl] at hj
                exact Nat.lt_of_succ_lt_succ hj
              have hpos : (q.readpos + (j' + 1)) % q.capacity
                  = ((q.readpos + 1) % q.capacity + j') % q.capacity := by
                rw [Nat.mod_add_mod, Nat.add_assoc, Nat.add_comm 1 j']
              rw [hpos]
              exact hpt j' hj'
          show upd q.msg q.readpos 0 p = 0
          rw [upd_other _ _ hpr]
          exact hemp p hp hpold

/-- Witness for C2 at a concrete queue: capacity 1, empty list; a send of
handle 7 appends it and a receive on the empty queue fails. -/
theorem C2_spsc_fifo_refinement_witness :
    (∃ q', trysend1 ⟨1, false, 0, 0, fun _ => 0⟩ 7 = (RC.ok, q')
      ∧ AbsR q' ([] ++ [7])) ∧
    tryrecv1 ⟨1, false, 0, 0, fun _ => 0⟩ = (RC.eagain, 0, ⟨1, false, 0, 0, fun _ => 0⟩) := by
  have habs : AbsR ⟨1, false, 0, 0, fun _ => 0⟩ [] := by
    refine ⟨by decide, by decide, by decide, by decide, by decide, ?_, ?_, ?_⟩
    · intro j hj
      simp at hj
    · intro x hx
      simp at hx
    · intro p hp hj
      rfl
  have hC2 := C2_spsc_fifo_refinement ⟨1, false, 0, 0, fun _ => 0⟩ [] 7 habs rfl
  exact ⟨(hC2.1 (by decide)).1 (by decide), hC2.2.1 rfl⟩

/-- A positive value whose bitwise AND with its predecessor is zero is a
power of two; this is the test `capacity & (capacity-1)` of new_iqueue.
An even value 2m satisfies 2m &&& (2m-1) = 2*(m &&& (m-1)); an odd value
2m+1 satisfies (2m+1) &&& 2m = 2m. -/
theorem pow2_of_and_pred_zero :
    ∀ n : Nat, 0 < n → n &&& (n - 1) = 0 → ∃ k, n = 2 ^ k := by
  intro n
  induction n using Nat.strong_induction_on with
  | _ n ih =>
    intro hpos hand
    rcases Nat.even_or_odd n with he | ho
    · obtain ⟨m, hm⟩ := he
      rcases m with _ | j
      · rw [hm] at hpos
        exact absurd hpos (by decide)
      · have h1 : n = Nat.bit false (j + 1) := by
          rw [Nat.bit_val, Bool.toNat_false, Nat.add_zero, Nat.two_mul]
          exact hm
        have h2 : n - 1 = Nat.bit true j := by
          rw [Nat.bit_val, Bool.toNat_true, hm, Nat.add_succ,
            Nat.succ_sub_one, Nat.succ_add, Nat.two_mul]
        rw [h2, h1, Nat.land_bit, Bool.false_and, Nat.bit_val,
          Bool.toNat_false, Nat.add_zero] at hand
        have hj0 : (j + 1) &&& j = 0 :=
          (Nat.mul_eq_zero.mp hand).resolve_left (by decide)
        have hlt : j + 1 < n := by
          rw [hm]
          exact Nat.lt_add_of_pos_right (Nat.succ_pos j)
        obtain ⟨k, hk⟩ := ih (j + 1) hlt (Nat.succ_pos j)
          (by rw [Nat.add_sub_cancel]; exact hj0)
        refine ⟨k + 1, ?_⟩
        rw [pow_succ, hm, hk]
        exact (mul_two _).symm
    · obtain ⟨m, hm⟩ := ho
      have h1 : n = Nat.bit true m := by
        rw [Nat.bit_val, Bool.toNat_true]
        exact hm
      have h2 : n - 1 = Nat.bit false m := by
        rw [Nat.bit_val, Bool.toNat_false, Nat.add_zero, hm,
          Nat.add_sub_cancel]
      rw [h2, h1, Nat.land_bit, Bool.and_false, Nat.bit_val,
        Bool.toNat_false, Nat.add_zero, Nat.and_self] at hand
      have hm0 : m = 0 :=
        (Nat.mul_eq_zero.mp hand).resolve_left (by decide)
      refine ⟨0, ?_⟩
      rw [pow_zero, hm, hm0]
      rfl

/-- Once the capacity-rounding loop's accumulator has wrapped to zero it
can never exit with a value: it either hits the guard or spins until the
fuel runs out. -/
theorem alignLoop_zero {szq szptr stmax cap : Nat} (hcap : 0 < cap) :
    ∀ (f L : Nat), alignLoop szq szptr stmax cap f 0 ≠ some (some L) := by
  intro f
  induction f with
  | zero =>
    intro L h
    exact absurd h (by simp [alignLoop])
  | succ f ih =>
    intro L h
    simp only [alignLoop] at h
    rw [if_pos hcap] at h
    by_cases hguard : (0 * 2) % U32 ≥ (stmax - szq) / szptr
    · rw [if_pos hguard] at h
      exact absurd h (by simp)
    · rw [if_neg hguard] at h
      have h0 : (0 * 2) % U32 = 0 := by simp
      rw [h0] at h
      exact ih L h

/-- When the capacity-rounding loop starts from a power of two (at most
2^31, as a uint32_t value can be) and exits normally, the exit value is the
least power of two that is at least both the start value and the requested
capacity. -/
theorem alignLoop_ok (szq szptr stmax cap : Nat) :
    ∀ (f a k L : Nat), a = 2 ^ k → k ≤ 31 →
    alignLoop szq szptr stmax cap f a = some (some L) →
    a ≤ L ∧ cap ≤ L ∧ (∃ k', L = 2 ^ k') ∧
      ∀ M j, M = 2 ^ j → a ≤ M → cap ≤ M → L ≤ M := by
  intro f
  induction f with
  | zero =>
    intro a k L ha hk h
    exact absurd h (by simp [alignLoop])
  | succ f ih =>
    intro a k L ha hk h
    simp only [alignLoop] at h
    by_cases hlt : a < cap
    · rw [if_pos hlt] at h
      by_cases hguard : (a * 2) % U32 ≥ (stmax - szq) / szptr
      · rw [if_pos hguard] at h
        exact absurd h (by simp)
      · rw [if_neg hguard] at h
        by_cases hk31 : k < 31
        · have ha2 : (a * 2) % U32 = 2 ^ (k + 1) := by
            rw [ha, ← pow_succ]
            refine Nat.mod_eq_of_lt ?_
            rw [U32_eq]
            calc (2:Nat) ^ (k + 1) ≤ 2 ^ 31 :=
                  Nat.pow_le_pow_right (by decide) hk31
              _ < 4294967296 := by decide
          rw [ha2] at h
          obtain ⟨h1, h2, h3, h4⟩ := ih _ (k + 1) L rfl hk31 h
          refine ⟨?_, h2, h3, ?_⟩
          · calc a ≤ 2 ^ (k + 1) := by
                  rw [ha]
                  exact Nat.pow_le_pow_right (by decide) (Nat.le_succ k)
              _ ≤ L := h1
          · intro M j hM haM hcM
            refine h4 M j hM ?_ hcM
            have haltM : a < M := Nat.lt_of_lt_of_le hlt hcM
            have hkj : k < j := by
              rw [ha, hM] at haltM
              exact (Nat.pow_lt_pow_iff_right (by decide)).mp haltM
            rw [hM]
            exact Nat.pow_le_pow_right (by decide) hkj
        · have hk31' : k = 31 := Nat.le_antisymm hk (Nat.not_lt.mp hk31)
          have ha2 : (a * 2) % U32 = 0 := by
            rw [ha, hk31', U32_eq]
            decide
          rw [ha2] at h
          exact absurd h (alignLoop_zero (Nat.zero_lt_of_lt hlt) f L)
    · rw [if_neg hlt] at h
      have hLa : L = a := by
        injection h with h'
        injection h' with h''
        exact h''.symm
      subst hLa
      push_neg at hlt
      exact ⟨Nat.le_refl _, hlt, ⟨k, ha⟩, fun M j hM haM _ => haM⟩

/-- C4: for every capacity argument a constructed MPMC queue's capacity
field is the requested capacity rounded up to the least power of two that
is at least N=256: it is a power of two, at least 256, at least the
request, minimal among such powers of two, and a request that is already
a power of two at least 256 is left unchanged.  The capacity argument is a
uint32_t value. -/
theorem C4_new_iqueue_capacity (szq szptr stmax cap : Nat) (q : IQueue)
    (hcap32 : cap < U32)
    (h : new_iqueue szq szptr stmax cap = .ok q) :
    (∃ k, q.capacity = 2 ^ k) ∧ NROFSIZE ≤ q.capacity ∧
    cap ≤ q.capacity ∧
    (∀ j, cap ≤ 2 ^ j → NROFSIZE ≤ 2 ^ j → q.capacity ≤ 2 ^ j) ∧
    ((∃ k, cap = 2 ^ k) → NROFSIZE ≤ cap → q.capacity = cap) := by
  simp only [new_iqueue] at h
  by_cases hbr : cap < NROFSIZE ∨ (cap &&& (cap - 1)) ≠ 0
  · rw [if_pos hbr] at h
    rcases halign : alignLoop szq szptr stmax cap 40 NROFSIZE with _ | ov
    · rw [halign] at h
      exact absurd h (by simp)
    · rcases ov with _ | a
      · rw [halign] at h
        exact absurd h (by simp)
      · rw [halign] at h
        have hq : initQueue a = q := by
          injection h
        have hN8 : (NROFSIZE : Nat) = 2 ^ 8 := by decide
        rw [hN8] at halign
        obtain ⟨h1, h2, h3, h4⟩ :=
          alignLoop_ok szq szptr stmax cap 40 _ 8 a rfl (by decide) halign
        have hqa : q.capacity = a := by
          rw [← hq]
          rfl
        rw [hqa]
        refine ⟨h3, by rw [hN8]; exact h1, h2, ?_, ?_⟩
        · intro j hj hj256
          exact h4 _ j rfl (by rw [hN8] at hj256; exact hj256) hj
        · intro ⟨c, hc⟩ hge
          exfalso
          have hmask : cap &&& (cap - 1) = 0 := by
            rw [hc]
            rw [Nat.and_pow_two_sub_one_eq_mod, Nat.mod_self]
          rcases hbr with hbr1 | hbr2
          · exact absurd hbr1 (Nat.not_lt.mpr hge)
          · exact hbr2 hmask
  · rw [if_neg hbr] at h
    push_neg at hbr
    obtain ⟨hge', hmask⟩ := hbr
    obtain ⟨c, hc⟩ := pow2_of_and_pred_zero cap
      (Nat.lt_of_lt_of_le NROFSIZE_pos hge') hmask
    have hc8 : 8 ≤ c := by
      by_contra hcon
      push_neg at hcon
      have hle : (2:Nat) ^ c ≤ 2 ^ 7 :=
        Nat.pow_le_pow_right (by decide) (Nat.lt_succ_iff.mp hcon)
      rw [NROFSIZE_eq, hc] at hge'
      exact absurd (Nat.le_trans hge' hle) (by decide)
    have hc31 : c ≤ 31 := by
      by_contra hcon
      push_neg at hcon
      have hle : (2:Nat) ^ 32 ≤ 2 ^ c := Nat.pow_le_pow_right (by decide) hcon
      rw [hc, U32_eq] at hcap32
      exact absurd (Nat.lt_of_le_of_lt hle hcap32) (by decide)
    have hhalf : cap / 2 = 2 ^ (c - 1) := by
      have hsplit : cap = 2 ^ (c - 1) * 2 := by
        rw [hc, ← pow_succ,
          Nat.sub_add_cancel (Nat.le_trans (by decide) hc8)]
      rw [hsplit]
      exact Nat.mul_div_cancel _ (by decide)
    rw [hhalf] at h
    rcases halign : alignLoop szq szptr stmax cap 40 (2 ^ (c - 1))
      with _ | ov
    · rw [halign] at h
      exact absurd h (by simp)
    · rcases ov with _ | a
      · rw [halign] at h
        exact absurd h (by simp)
      · rw [halign] at h
        have hq : initQueue a = q := by
          injection h
        obtain ⟨h1, h2, h3, h4⟩ :=
          alignLoop_ok szq szptr stmax cap 40 _ (c - 1) a rfl
            (Nat.le_trans (Nat.sub_le c 1) hc31) halign
        have hqa : q.capacity = a := by
          rw [← hq]
          rfl
        rw [hqa]
        have hps : (2:Nat) ^ (c - 1) ≤ cap := by
          rw [hc]
          exact Nat.pow_le_pow_right (by decide) (Nat.sub_le c 1)
        have hacap : a ≤ cap := h4 cap c hc hps (Nat.le_refl _)
        refine ⟨h3, Nat.le_trans hge' h2, h2, ?_,
          fun _ _ => Nat.le_antisymm hacap h2⟩
        intro j hj _
        refine h4 _ j rfl ?_ hj
        calc (2:Nat) ^ (c - 1) = cap / 2 := hhalf.symm
          _ ≤ cap := Nat.div_le_self _ _
          _ ≤ 2 ^ j := hj

/-- Witness for C4 at a concrete request: capacity 300 (not a power of
two) is rounded up to 512 on a 64-bit-like platform model. -/
theorem C4_new_iqueue_capacity_witness :
    NROFSIZE ≤ (initQueue 512).capacity ∧
    300 ≤ (initQueue 512).capacity ∧
    (initQueue 512).capacity ≤ 2 ^ 9 := by
  have hC4 := C4_new_iqueue_capacity 200 8 (2 ^ 64 - 1) 300 (initQueue 512)
    (by decide) (by rfl)
  exact ⟨hC4.2.1, hC4.2.2.1, hC4.2.2.2.1 9 (by decide) (by decide)⟩

/-- On a 32-bit platform model (size_t max 2^32-1, 4-byte pointers) with a
realistic struct size, the overflow guard bound of new_iqueue lies strictly
between 2^29 and 2^30. -/
theorem guard32_lo {szq : Nat} (hszq : szq ≤ 4096) :
    (2:Nat) ^ 29 < (U32 - 1 - szq) / 4 := by
  have h1 : (4294963199 : Nat) ≤ U32 - 1 - szq := by
    rw [U32_eq]
    omega
  calc (2:Nat) ^ 29 < 4294963199 / 4 := by decide
    _ ≤ (U32 - 1 - szq) / 4 := Nat.div_le_div_right h1

theorem guard32_hi (szq : Nat) : (U32 - 1 - szq) / 4 ≤ 2 ^ 30 := by
  have h1 : U32 - 1 - szq ≤ 4294967295 := by
    rw [U32_eq]
    omega
  calc (U32 - 1 - szq) / 4 ≤ 4294967295 / 4 := Nat.div_le_div_right h1
    _ ≤ 2 ^ 30 := by decide

/-- On the 32-bit platform model, when the requested capacity exceeds 2^29
the doubling reaches a power of two of at least 2^30 before it can exit,
the guard fires, and the loop returns EINVAL. -/
theorem alignLoop_einval_32 {szq cap : Nat} (_hszq : szq ≤ 4096)
    (hcap : 2 ^ 29 < cap) :
    ∀ (f k : Nat), k ≤ 30 → 2 ^ k < cap → 31 - k ≤ f →
    alignLoop szq 4 (U32 - 1) cap f (2 ^ k) = some none := by
  intro f
  induction f with
  | zero =>
    intro k hk hklt hfuel
    exact absurd (Nat.le_of_sub_eq_zero (Nat.le_zero.mp hfuel))
      (Nat.not_le.mpr (Nat.lt_succ_of_le hk))
  | succ f ih =>
    intro k hk hklt hfuel
    have ha2 : ((2:Nat) ^ k * 2) % U32 = 2 ^ (k + 1) := by
      rw [← pow_succ]
      refine Nat.mod_eq_of_lt ?_
      rw [U32_eq]
      calc (2:Nat) ^ (k + 1) ≤ 2 ^ 31 :=
            Nat.pow_le_pow_right (by decide) (Nat.succ_le_succ hk)
        _ < 4294967296 := by decide
    simp only [alignLoop]
    rw [if_pos hklt, ha2]
    by_cases hg : 2 ^ (k + 1) ≥ (U32 - 1 - szq) / 4
    · rw [if_pos hg]
    · rw [if_neg hg]
      have hB2 := guard32_hi szq
      have hk1 : k + 1 ≤ 29 := by
        by_contra hcon
        push_neg at hcon
        have h30 : (2:Nat) ^ 30 ≤ 2 ^ (k + 1) :=
          Nat.pow_le_pow_right (by decide) hcon
        exact absurd (Nat.lt_of_lt_of_le (Nat.lt_of_not_ge hg) hB2)
          (Nat.not_lt.mpr h30)
      refine ih (k + 1) (Nat.le_trans hk1 (by decide)) ?_ ?_
      · have h29 : (2:Nat) ^ (k + 1) ≤ 2 ^ 29 :=
          Nat.pow_le_pow_right (by decide) hk1
        exact Nat.lt_of_le_of_lt h29 hcap
      · rw [← Nat.sub_sub]
        exact Nat.sub_le_of_le_add hfuel

/-- On the 32-bit platform model, when the requested capacity is at most
2^29 the guard never fires and the loop exits with a value. -/
theorem alignLoop_exits_32 {szq cap : Nat} (hszq : szq ≤ 4096)
    (hcap : cap ≤ 2 ^ 29) :
    ∀ (f k : Nat), 31 - k < f →
    ∃ L, alignLoop szq 4 (U32 - 1) cap f (2 ^ k) = some (some L) := by
  intro f
  induction f with
  | zero =>
    intro k hfuel
    exact absurd hfuel (Nat.not_lt_zero _)
  | succ f ih =>
    intro k hfuel
    by_cases hexit : 2 ^ k < cap
    · have hk : k ≤ 28 := by
        by_contra hcon
        push_neg at hcon
        have h29 : (2:Nat) ^ 29 ≤ 2 ^ k :=
          Nat.pow_le_pow_right (by decide) hcon
        exact absurd (Nat.lt_of_lt_of_le hexit hcap) (Nat.not_lt.mpr h29)
      have ha2 : ((2:Nat) ^ k * 2) % U32 = 2 ^ (k + 1) := by
        rw [← pow_succ]
        refine Nat.mod_eq_of_lt ?_
        rw [U32_eq]
        calc (2:Nat) ^ (k + 1) ≤ 2 ^ 29 :=
              Nat.pow_le_pow_right (by decide) (Nat.succ_le_succ hk)
          _ < 4294967296 := by decide
      have hg : ¬ (2 ^ (k + 1) ≥ (U32 - 1 - szq) / 4) := by
        have hB1 := guard32_lo hszq
        have h29 : (2:Nat) ^ (k + 1) ≤ 2 ^ 29 :=
          Nat.pow_le_pow_right (by decide) (Nat.succ_le_succ hk)
        exact Nat.not_le.mpr (Nat.lt_of_le_of_lt h29 hB1)
      obtain ⟨L, hL⟩ := ih (k + 1) (by
        rw [← Nat.sub_sub]
        exact Nat.lt_of_lt_of_le
          (Nat.sub_lt (Nat.sub_pos_of_lt (Nat.lt_succ_of_le
            (Nat.le_trans hk (by decide)))) (by decide))
          (Nat.lt_succ_iff.mp hfuel))
      refine ⟨L, ?_⟩
      simp only [alignLoop]
      rw [if_pos hexit, ha2, if_neg hg]
      exact hL
    · refine ⟨2 ^ k, ?_⟩
      simp only [alignLoop]
      rw [if_neg hexit]

/-- The EINVAL outcome of new_iqueue is exactly the EINVAL outcome of its
capacity-rounding loop. -/
theorem new_iqueue_einval_iff (szq szptr stmax cap : Nat) :
    new_iqueue szq szptr stmax cap = .einval ↔
    alignLoop szq szptr stmax cap 40
      (if cap < NROFSIZE ∨ (cap &&& (cap - 1)) ≠ 0 then NROFSIZE
       else cap / 2) = some none := by
  simp only [new_iqueue]
  rcases halign : alignLoop szq szptr stmax cap 40
      (if cap < NROFSIZE ∨ (cap &&& (cap - 1)) ≠ 0 then NROFSIZE
       else cap / 2) with _ | ov
  · simp
  · rcases ov with _ | a <;> simp

/-- C10: new_iqueue does not reject a zero capacity: new_iqueue(queue, 0)
succeeds (given memory) on every platform model and yields the minimum
capacity 256.  On the 32-bit platform model (size_t max 2^32-1, 4-byte
pointers, struct size a positive multiple of 4 at most 4096) EINVAL is
returned if and only if the allocation size of the rounded capacity --
sizeof(iqueue_t) plus rounded-capacity pointers -- would overflow size_t;
never merely because the requested capacity is zero. -/
theorem C10_new_iqueue_zero_accepted :
    (∀ szq szptr stmax : Nat,
      new_iqueue szq szptr stmax 0 = .ok (initQueue NROFSIZE)) ∧
    (∀ szq cap : Nat, 0 < szq → szq ≤ 4096 → 4 ∣ szq → cap < U32 →
      (new_iqueue szq 4 (U32 - 1) cap = .einval ↔
        ∀ L, (∃ k, L = 2 ^ k) → NROFSIZE ≤ L → cap ≤ L →
          U32 - 1 < szq + L * 4)) := by
  constructor
  · intro szq szptr stmax
    rfl
  · intro szq cap hszq0 hszq h4dvd hcapU
    have hiff29 : new_iqueue szq 4 (U32 - 1) cap = .einval ↔
        2 ^ 29 < cap := by
      constructor
      · intro heinval
        by_contra hle
        push_neg at hle
        have halign := (new_iqueue_einval_iff szq 4 (U32 - 1) cap).mp heinval
        by_cases hbr : cap < NROFSIZE ∨ (cap &&& (cap - 1)) ≠ 0
        · rw [if_pos hbr] at halign
          have hN8 : (NROFSIZE : Nat) = 2 ^ 8 := by decide
          rw [hN8] at halign
          obtain ⟨L, hok⟩ := alignLoop_exits_32 hszq hle 40 8 (by decide)
          rw [hok] at halign
          exact absurd halign (by simp)
        · rw [if_neg hbr] at halign
          push_neg at hbr
          obtain ⟨hge', hmask⟩ := hbr
          obtain ⟨c, hc⟩ := pow2_of_and_pred_zero cap
            (Nat.lt_of_lt_of_le NROFSIZE_pos hge') hmask
          have hc8 : 8 ≤ c := by
            by_contra hcon
            push_neg at hcon
            have h7 : (2:Nat) ^ c ≤ 2 ^ 7 :=
              Nat.pow_le_pow_right (by decide) (Nat.lt_succ_iff.mp hcon)
            rw [NROFSIZE_eq, hc] at hge'
            exact absurd (Nat.le_trans hge' h7) (by decide)
          have hhalf : cap / 2 = 2 ^ (c - 1) := by
            have hsplit : cap = 2 ^ (c - 1) * 2 := by
              rw [hc, ← pow_succ,
                Nat.sub_add_cancel (Nat.le_trans (by decide) hc8)]
            rw [hsplit]
            exact Nat.mul_div_cancel _ (by decide)
          rw [hhalf] at halign
          obtain ⟨L, hok⟩ := alignLoop_exits_32 hszq hle 40 (c - 1)
            (Nat.lt_of_le_of_lt (Nat.sub_le _ _) (by decide))
          rw [hok] at halign
          exact absurd halign (by simp)
      · intro hcap29
        rw [new_iqueue_einval_iff]
        by_cases hbr : cap < NROFSIZE ∨ (cap &&& (cap - 1)) ≠ 0
        · rw [if_pos hbr]
          have hN8 : (NROFSIZE : Nat) = 2 ^ 8 := by decide
          rw [hN8]
          refine alignLoop_einval_32 hszq hcap29 40 8 (by decide) ?_
            (by decide)
          have h829 : (2:Nat) ^ 8 ≤ 2 ^ 29 :=
            Nat.pow_le_pow_right (by decide) (by decide)
          exact Nat.lt_of_le_of_lt h829 hcap29
        · rw [if_neg hbr]
          push_neg at hbr
          obtain ⟨hge', hmask⟩ := hbr
          obtain ⟨c, hc⟩ := pow2_of_and_pred_zero cap
            (Nat.lt_of_lt_of_le NROFSIZE_pos hge') hmask
          have hc30 : 30 ≤ c := by
            by_contra hcon
            push_neg at hcon
            have h29 : (2:Nat) ^ c ≤ 2 ^ 29 :=
              Nat.pow_le_pow_right (by decide) (Nat.lt_succ_iff.mp hcon)
            rw [hc] at hcap29
            exact absurd (Nat.lt_of_lt_of_le hcap29 h29) (Nat.lt_irrefl _)
          have hc31 : c ≤ 31 := by
            by_contra hcon
            push_neg at hcon
            have h32 : (2:Nat) ^ 32 ≤ 2 ^ c :=
              Nat.pow_le_pow_right (by decide) hcon
            rw [hc, U32_eq] at hcapU
            exact absurd (Nat.lt_of_le_of_lt h32 hcapU) (by decide)
          have hhalf : cap / 2 = 2 ^ (c - 1) := by
            have hsplit : cap = 2 ^ (c - 1) * 2 := by
              rw [hc, ← pow_succ,
                Nat.sub_add_cancel (Nat.le_trans (by decide) hc30)]
            rw [hsplit]
            exact Nat.mul_div_cancel _ (by decide)
          rw [hhalf]
          refine alignLoop_einval_32 hszq hcap29 40 (c - 1)
            (Nat.sub_le_iff_le_add.mpr hc31) ?_
            (Nat.le_trans (Nat.sub_le _ _) (by decide))
          rw [hc]
          exact Nat.pow_lt_pow_right (by decide)
            (Nat.sub_lt (Nat.lt_of_lt_of_le (by decide) hc30) (by decide))
    rw [hiff29]
    constructor
    · intro hcap29 L hLpow hL256 hLcap
      obtain ⟨j, hLj⟩ := hLpow
      subst hLj
      have hj30 : 30 ≤ j := by
        by_contra hcon
        push_neg at hcon
        have h29 : (2:Nat) ^ j ≤ 2 ^ 29 :=
          Nat.pow_le_pow_right (by decide) (Nat.lt_succ_iff.mp hcon)
        exact absurd (Nat.lt_of_lt_of_le hcap29 (Nat.le_trans hLcap h29))
          (Nat.lt_irrefl _)
      have h30j : (2:Nat) ^ 30 ≤ 2 ^ j :=
        Nat.pow_le_pow_right (by decide) hj30
      have h30 : (2:Nat) ^ 30 * 4 = U32 := by
        rw [U32_eq]
        decide
      exact Nat.lt_of_lt_of_le (Nat.sub_lt (by decide) (by decide))
        (Nat.le_trans (h30 ▸ Nat.mul_le_mul_right 4 h30j)
          (Nat.le_add_left _ _))
    · intro hRHS
      by_contra hle
      push_neg at hle
      have h := hRHS (2 ^ 29) ⟨29, rfl⟩ (by decide) hle
      have h29 : (2:Nat) ^ 29 * 4 = 2147483648 := by decide
      rw [U32_eq, h29] at h
      exact absurd (Nat.lt_of_lt_of_le h (Nat.add_le_add_right hszq _))
        (by decide)

/-- Witness for C10: capacity 0 is accepted on a 64-bit-like platform
model, yielding capacity 256; and on the 32-bit model with struct size 64,
capacity 0 does not yield EINVAL. -/
theorem C10_new_iqueue_zero_accepted_witness :
    new_iqueue 64 8 (2 ^ 64 - 1) 0 = .ok (initQueue NROFSIZE) ∧
    ¬ (new_iqueue 64 4 (U32 - 1) 0 = .einval) := by
  constructor
  · exact C10_new_iqueue_zero_accepted.1 64 8 (2 ^ 64 - 1)
  · intro h
    have hiff := (C10_new_iqueue_zero_accepted.2 64 0 (by decide)
      (by decide) (by decide) (by decide)).mp h
    have h0 := hiff NROFSIZE ⟨8, by decide⟩ (Nat.le_refl _) (Nat.zero_le _)
    rw [U32_eq, NROFSIZE_eq] at h0
    exact absurd h0 (by decide)

/-- Counterexample to C3 as stated: on a closed queue, a trysend_iqueue
call with the null handle returns EINVAL, not EPIPE, because the null check
precedes the closed check (iqueue.c lines 226-228 vs 232). -/
theorem C3_closed_terminal_counterexample :
    trysend (close (initQueue 256)) 0
      = .err .einval (close (initQueue 256)) ∧
    RC.einval ≠ RC.epipe :=
  ⟨rfl, by decide⟩

/-- C3 amended: after close_iqueue has run (it sets the closed flag, which
no operation resets, and repeated closes are idempotent), every subsequent
tryrecv_iqueue or recv_iqueue, and every trysend_iqueue or send_iqueue
whose msg is non-null, returns EPIPE with the queue state unchanged,
regardless of how many messages remain stored; a trysend/send with the
null msg still returns EINVAL, as the null check precedes the closed
check. -/
theorem C3_closed_terminal (q : IQueue) (m : Nat) (hcl : q.closed = true)
    (hm : m ≠ 0) :
    trysend q m = .err .epipe q ∧
    tryrecv q = .err .epipe q ∧
    send q m = (.done .epipe q, 0) ∧
    recv q = (.done .epipe 0 q, 0) ∧
    trysend q 0 = .err .einval q ∧
    (∀ q'' : IQueue, (close q'').closed = true) ∧
    close (close q) = close q := by
  have hts := trysend_closed hcl hm
  have htr := tryrecv_closed hcl
  refine ⟨hts, htr, ?_, ?_, trysend_einval q, fun _ => rfl, rfl⟩
  · unfold send
    rw [hts]
    rfl
  · unfold recv
    rw [htr]
    rfl

/-- Witness for the amended C3 at a closed queue of capacity 256 and
handle 5. -/
theorem C3_closed_terminal_witness :
    trysend (close (initQueue 256)) 5
      = .err .epipe (close (initQueue 256)) ∧
    send (close (initQueue 256)) 5
      = (.done .epipe (close (initQueue 256)), 0) :=
  ⟨(C3_closed_terminal (close (initQueue 256)) 5 rfl (by decide)).1,
   (C3_closed_terminal (close (initQueue 256)) 5 rfl (by decide)).2.2.1⟩

/-- A queue of capacity 256 with one reader parked on the reader gate that
has not incremented signalcount (as happens when a prior sender consumed
the signal while the reader had not yet resumed). -/
def qReaderParked : IQueue :=
  { initQueue 256 with reader := { waitcount := 1, signalcount := 0 } }

theorem qReaderParked_inv : Inv qReaderParked :=
  ⟨initQueue_inv.cap_pow, initQueue_inv.ifree_lt, initQueue_inv.iused_lt,
   initQueue_inv.quota, initQueue_inv.wpos_eq, initQueue_inv.rpos_lt,
   initQueue_inv.cells_in, initQueue_inv.cells_out⟩

/-- Counterexample to C8 as stated: a send_iqueue that succeeds while a
reader is parked on the reader gate (reader.waitcount = 1) but
reader.signalcount = 0 issues no cond_signal at all -- the wake condition
in WAKEUP_READER is signalcount, not waitcount. -/
theorem C8_send_wakes_reader_counterexample :
    (∃ q', (send qReaderParked 5).1 = BSendRes.done RC.ok q') ∧
    qReaderParked.reader.waitcount = 1 ∧
    (send qReaderParked 5).2 = 0 := by
  obtain ⟨j, hj, hfree, heq⟩ := trysend_ok qReaderParked_inv
    (m := 5) (by decide) rfl (i := 0) (by decide) (by decide)
  unfold send
  rw [heq]
  exact ⟨⟨_, rfl⟩, rfl, rfl⟩

/-- C8 amended: send_iqueue issues a reader-gate cond_signal exactly when
its initial trysend_iqueue returned 0 and reader.signalcount was non-zero;
in that case it issues exactly one cond_signal and decrements
reader.signalcount by one.  No wake-up happens when the try failed with
any error, when signalcount is zero (even with readers parked), or after a
send that succeeded only by parking on the writer gate: the single
WAKEUP_READER sits before the parking loop. -/
theorem C8_send_wake_policy (q : IQueue) (m : Nat) (h : Inv q) :
    ((send q m).2 = 1 ↔
      (∃ q', trysend q m = .ok q') ∧ q.reader.signalcount ≠ 0) ∧
    ((send q m).2 ≠ 1 → (send q m).2 = 0) ∧
    (∀ q'', (send q m).2 = 1 → (send q m).1 = .done .ok q'' →
      q''.reader.signalcount = q.reader.signalcount - 1) := by
  have hsend : (∃ q', trysend q m = .ok q' ∧
        q'.reader = q.reader) ∨
      (∃ rc, trysend q m = .err rc q ∧ rc ≠ RC.ok) := by
    by_cases hm : m = 0
    · subst hm
      exact Or.inr ⟨.einval, trysend_einval q, by decide⟩
    · by_cases hcl : q.closed = true
      · exact Or.inr ⟨.epipe, trysend_closed hcl hm, by decide⟩
      · have hclf : q.closed = false := by simpa using hcl
        by_cases hz : ∀ i < NROFSIZE, q.sizefree i = 0
        · exact Or.inr ⟨.eagain, trysend_eagain h hm hclf hz, by decide⟩
        · push_neg at hz
          obtain ⟨i, hi, hnz⟩ := hz
          obtain ⟨j, hj, hfree, heq⟩ := trysend_ok h hm hclf hi hnz
          exact Or.inl ⟨_, heq, rfl⟩
  rcases hsend with ⟨q', heq, hrd⟩ | ⟨rc, heq, hrc⟩
  · have hs : send q m
        = (.done .ok (wakeupReader .ok q').1, (wakeupReader .ok q').2) := by
      unfold send
      rw [heq]
    by_cases hsc : q.reader.signalcount ≠ 0
    · have hw : wakeupReader .ok q'
          = ({ q' with reader := { q'.reader with
               signalcount := q'.reader.signalcount - 1 } }, 1) := by
        unfold wakeupReader
        rw [hrd, if_pos ⟨rfl, hsc⟩, if_pos hsc]
      rw [hs, hw]
      refine ⟨?_, ?_, ?_⟩
      · exact ⟨fun _ => ⟨⟨q', heq⟩, hsc⟩, fun _ => rfl⟩
      · intro hne
        exact absurd rfl hne
      · intro q'' _ hq''
        cases hq''
        show q'.reader.signalcount - 1 = q.reader.signalcount - 1
        rw [hrd]
    · have hsc0 : q.reader.signalcount = 0 := by
        simpa using hsc
      have hw : wakeupReader .ok q' = (q', 0) := by
        unfold wakeupReader
        rw [hrd, hsc0]
        simp
      rw [hs, hw]
      refine ⟨?_, fun _ => rfl, ?_⟩
      · constructor
        · intro h10
          exact absurd h10 (by simp)
        · intro hx
          exact absurd hsc0 hx.2
      · intro q'' h10
        exact absurd h10 (by simp)
  · have hw : wakeupReader rc q = (q, 0) := by
      unfold wakeupReader
      have : ¬ (rc = RC.ok ∧ q.reader.signalcount ≠ 0) := by
        intro hx
        exact hrc hx.1
      rw [if_neg this]
    have hs : (send q m).2 = 0 ∧
        ∀ q'', (send q m).1 ≠ BSendRes.done RC.ok q'' := by
      unfold send
      rw [heq]
      dsimp only
      rw [hw]
      by_cases hrca : rc = RC.eagain
      · subst hrca
        simp
      · rw [if_neg hrca]
        refine ⟨rfl, ?_⟩
        intro q'' hx
        dsimp only at hx
        injection hx with h1 h2
        exact hrc h1
    refine ⟨?_, fun _ => hs.1, ?_⟩
    · rw [hs.1]
      constructor
      · intro h01
        exact absurd h01 (by decide)
      · intro ⟨⟨q0, hq0⟩, _⟩
        rw [heq] at hq0
        exact SendRes.noConfusion hq0
    · intro q'' h1 _
      rw [hs.1] at h1
      exact absurd h1 (by decide)

/-- Witness for the amended C8 at the freshly constructed queue of capacity
256 with handle 5: the full wake-policy statement instantiated. -/
theorem C8_send_wake_policy_witness :
    ((send (initQueue 256) 5).2 = 1 ↔
      (∃ q', trysend (initQueue 256) 5 = .ok q') ∧
      (initQueue 256).reader.signalcount ≠ 0) ∧
    ((send (initQueue 256) 5).2 ≠ 1 → (send (initQueue 256) 5).2 = 0) ∧
    (∀ q'', (send (initQueue 256) 5).2 = 1 →
      (send (initQueue 256) 5).1 = .done .ok q'' →
      q''.reader.signalcount = (initQueue 256).reader.signalcount - 1) :=
  C8_send_wake_policy (initQueue 256) 5 initQueue_inv

end Iqueue
